import Mathlib

set_option linter.unusedSectionVars false

/-!
Verification of the GCAM core container: the separate-chaining template
`HashMap<Key, Value>` (src/objects/util/base/include/hash_map.h) and the
`AtomRegistry` singleton built on it
(src/objects/util/base/source/atom_registry.cpp).

The C++ `HashMap` stores a vector of bucket chain heads
(`std::vector<boost::shared_ptr<Item>> mBuckets`), the capacity `mSize`,
the entry count `mNumEntries`, and a hash function.  Each `Item` holds the
pair `mKeyValuePair` and an owning pointer `mNext` to the next chain node.

Shallow-embedding conventions used below:

* A bucket's pointer-linked chain (the list reached from the chain head
  through `mNext`) is embedded as a Lean `List (Item K V)`; adjacency in
  the list is the successor relation realised by the `mNext` pointers.
* Every `Item` additionally carries a ghost field `id`, an allocation
  counter modelling the node's address: two `Item*` values compare equal
  in C++ iff the `id`s of the embedded items agree.  The table's
  `mNextId` field is the allocation counter.
* The `mNext` pointer itself is mirrored by a ghost field holding the
  `id` of the successor (`none` for the null pointer).  It is written by
  exactly the statements that write `mNext` in the source (chain tail
  append, and the reset in `resize`), and chain adjacency is used to read
  it, matching the linkage discipline of the source.
* The hash function is an explicit parameter `hash : K → Nat` rather
  than a stored field (the C++ member `mHashFunction` is stateless).
* The load-factor test `static_cast<double>(mNumEntries) / mSize > 0.4`
  is embedded as the exact comparison `5 * mNumEntries > 2 * mSize`;
  for the magnitudes a table can reach both sides convert to `double`
  exactly, and the literal `0.4` rounds to the same double as the
  quotient `2.0/5.0`, so the exact rational comparison and the double
  comparison agree.
* Fallible dereference is embedded with `Option`: `operator*` has the
  precondition `mCurrentItem.first != 0`, so dereference is modelled by
  `derefOpt`, which is `none` exactly on the end sentinel.
-/

namespace GCAM

/-- Embedding of `HashMap<Key,Value>::Item` (hash_map.h:167-180): the key
value pair `mKeyValuePair` plus the chain pointer `mNext`, with a ghost
allocation identity `id` standing for the node's address. -/
structure Item (K V : Type) where
  id : Nat
  mKeyValuePair : K × V
  mNext : Option Nat
deriving DecidableEq

/-- Key component of the stored pair. -/
def Item.key {K V : Type} (it : Item K V) : K := it.mKeyValuePair.1

/-- Value component of the stored pair. -/
def Item.value {K V : Type} (it : Item K V) : V := it.mKeyValuePair.2

/-- Embedding of the `HashMap` state (hash_map.h:150-161): the bucket
vector, its size `mSize`, the entry count `mNumEntries`, and the ghost
allocation counter `mNextId` for fresh `Item` addresses. -/
structure HashMap (K V : Type) where
  mBuckets : List (List (Item K V))
  mSize : Nat
  mNumEntries : Nat
  mNextId : Nat
deriving DecidableEq

/-- Embedding of the mutable `HashMap::iterator` (hash_map.h:79-100):
`item` and `bucket` are the components of `mCurrentItem`
(`std::pair<Item*, size_t>`, the null pointer being `none`), and
`parent` is `mParent` (null being `none`). -/
structure Iterator (K V : Type) where
  item : Option (Item K V)
  bucket : Nat
  parent : Option (HashMap K V)
deriving DecidableEq

/-- Embedding of `HashMap::const_iterator` (hash_map.h:103-128), with the
same state as the mutable variant. -/
structure ConstIterator (K V : Type) where
  item : Option (Item K V)
  bucket : Nat
  parent : Option (HashMap K V)
deriving DecidableEq

variable {K V : Type}

/-- The constructor `HashMap(aSize)` (hash_map.h:196-204): `aSize` empty
buckets, `mSize = aSize`, no entries.  Any requested size is accepted,
including zero. -/
def mkHashMap (aSize : Nat) : HashMap K V :=
  ⟨List.replicate aSize [], aSize, 0, 0⟩

/-- The default initial size `DEFAULT_SIZE` (hash_map.h:27). -/
def DEFAULT_SIZE : Nat := 23

/-- The method `empty()` (hash_map.h:228-232): `mNumEntries == 0`. -/
def HashMap.empty (m : HashMap K V) : Bool := m.mNumEntries == 0

/-- The method `size()` (hash_map.h:237-241): returns `mNumEntries`. -/
def HashMap.size (m : HashMap K V) : Nat := m.mNumEntries

/-- The chain hanging off bucket `j`: `mBuckets[j]` read as the list of
nodes reachable from the chain head (empty list for a null head, and for
an out-of-range index, which in C++ would be undefined behaviour). -/
def chainAt (m : HashMap K V) (j : Nat) : List (Item K V) := m.mBuckets.getD j []

/-- The end sentinel `end()` (hash_map.h:432-436): `iterator(0, 0, 0)` —
null item, bucket position `0`, null parent. -/
def Iterator.endIter : Iterator K V := ⟨none, 0, none⟩

/-- Writing the chain pointer `prev->mNext = newValue` of the chain's last
node (ghost mirror of the pointer write; the list structure itself realises
the link). -/
def setTailNext : List (Item K V) → Nat → List (Item K V)
  | [], _ => []
  | [a], n => [{a with mNext := some n}]
  | a :: b :: rest, n => a :: setTailNext (b :: rest) n

/-- Appending a node at the end of a chain, as `insert` (hash_map.h:306-319)
and the reinsertion loop of `resize` (hash_map.h:519-542) do: if the chain
is empty the node becomes the bucket head, otherwise the previous tail's
`mNext` is pointed at it. -/
def appendChain (c : List (Item K V)) (x : Item K V) : List (Item K V) :=
  setTailNext c x.id ++ [x]

variable [DecidableEq K]

/-- The update branch of `insert` (hash_map.h:273-298): walk the chain and
overwrite the stored value of the first node whose key matches
(`curr->mKeyValuePair.second = aKeyValuePair.second`). -/
def updateFirst : List (Item K V) → K → V → List (Item K V)
  | [], _, _ => []
  | a :: rest, k, v =>
    if a.key = k then {a with mKeyValuePair := (a.mKeyValuePair.1, v)} :: rest
    else a :: updateFirst rest k v

variable (hash : K → Nat)

/-- The method `find(aKey)` (mutable overload, hash_map.h:354-375): compute
`bucketSpot = mHashFunction(aKey) % mSize`, walk that bucket's chain
comparing keys, return `iterator(curr, bucketSpot, this)` on a match and
`end()` otherwise. -/
def HashMap.find (m : HashMap K V) (aKey : K) : Iterator K V :=
  let bucketSpot := hash aKey % m.mSize
  match (chainAt m bucketSpot).find? (fun it => decide (it.key = aKey)) with
  | some curr => ⟨some curr, bucketSpot, some m⟩
  | none => Iterator.endIter

/-- The collection phase of `resize` (hash_map.h:462-480): walk the buckets
in index order, pushing every chain node onto `temporaryList` in chain
order. -/
def collectEntries (m : HashMap K V) : List (Item K V) := m.mBuckets.flatten

/-- The link-clearing step of `resize` (hash_map.h:507-510):
`temporaryList[i]->mNext.reset()` nulls each collected node's successor
pointer before it is reinserted. -/
def clearLinks (l : List (Item K V)) : List (Item K V) :=
  l.map (fun it => {it with mNext := none})

/-- One step of the reinsertion loop of `resize` (hash_map.h:512-542):
recompute `bucketSpot` under the new size and append the node at the end
of the new chain (bucket head if the slot is empty). -/
def reinsertStep (newSize : Nat) (bs : List (List (Item K V))) (it : Item K V) :
    List (List (Item K V)) :=
  let bucketSpot := hash it.key % newSize
  bs.set bucketSpot (appendChain (bs.getD bucketSpot []) it)

/-- The method `resize(aNewSize)` (hash_map.h:456-544): no-op when
`aNewSize == mSize`; otherwise collect all nodes, reset their `mNext`
pointers, replace the bucket vector by `aNewSize` empty slots, and
reinsert every node under the new size.  `mNumEntries` (and the
allocation counter) are untouched: the loop does not go through
`insert`. -/
def HashMap.resize (m : HashMap K V) (aNewSize : Nat) : HashMap K V :=
  if aNewSize = m.mSize then m
  else
    { mBuckets := (clearLinks (collectEntries m)).foldl (reinsertStep hash aNewSize)
        (List.replicate aNewSize []),
      mSize := aNewSize,
      mNumEntries := m.mNumEntries,
      mNextId := m.mNextId }

/-- The value returned by `insert` — the pair `(iterator, bool)` — together
with the mutated table (`*this` after the call). -/
structure InsertResult (K V : Type) where
  table : HashMap K V
  iter : Iterator K V
  existed : Bool

/-- The table state reached by the non-update branch of `insert` just
before the load-factor check (hash_map.h:300-319): the freshly allocated
`Item` is appended at the tail of its bucket's chain (or installed as the
bucket head when the chain is empty) and `mNumEntries` is incremented. -/
def insertRaw (m : HashMap K V) (aKeyValuePair : K × V) : HashMap K V :=
  { m with
    mBuckets := m.mBuckets.set (hash aKeyValuePair.1 % m.mSize)
      (appendChain (chainAt m (hash aKeyValuePair.1 % m.mSize))
        ⟨m.mNextId, aKeyValuePair, none⟩),
    mNumEntries := m.mNumEntries + 1,
    mNextId := m.mNextId + 1 }

/-- The table state the non-update branch of `insert` returns
(hash_map.h:320-343): after the raw addition, if
`mNumEntries / mSize > 0.4` (exactly: `5 * mNumEntries > 2 * mSize`),
resize to `mNumEntries * RESIZE_MULTIPLE + ADDITIONAL_INCREMENT`,
i.e. `mNumEntries * 3 + 5` slots. -/
def insertResize (m : HashMap K V) (aKeyValuePair : K × V) : HashMap K V :=
  if 5 * (insertRaw hash m aKeyValuePair).mNumEntries
      > 2 * (insertRaw hash m aKeyValuePair).mSize
  then HashMap.resize hash (insertRaw hash m aKeyValuePair)
    ((insertRaw hash m aKeyValuePair).mNumEntries * 3 + 5)
  else insertRaw hash m aKeyValuePair

/-- The table state after the update branch of `insert`
(hash_map.h:295-298): the first chain node with a matching key has its
stored value overwritten in place. -/
def updateTable (m : HashMap K V) (aKeyValuePair : K × V) : HashMap K V :=
  { m with
    mBuckets := m.mBuckets.set (hash aKeyValuePair.1 % m.mSize)
      (updateFirst (chainAt m (hash aKeyValuePair.1 % m.mSize))
        aKeyValuePair.1 aKeyValuePair.2) }

/-- The method `insert(aKeyValuePair)` (hash_map.h:256-346): compute
`bucketSpot = mHashFunction(key) % mSize` and walk the chain.  On a key
match, overwrite the stored value in place and return
`(iterator(curr, bucketSpot, this), true)`.  Otherwise allocate a new
`Item`, append it at the chain tail (or install it as the bucket head),
increment `mNumEntries`, and — if the new load factor exceeds the 0.4
threshold (exactly: `5 * mNumEntries > 2 * mSize`) — resize to
`mNumEntries * 3 + 5` slots before returning
`(iterator(newValue, bucketSpot, this), false)`.  Note the returned
iterator keeps the `bucketSpot` computed under the pre-resize size. -/
def HashMap.insert (m : HashMap K V) (aKeyValuePair : K × V) : InsertResult K V :=
  let bucketSpot := hash aKeyValuePair.1 % m.mSize
  let chain := chainAt m bucketSpot
  match chain.find? (fun it => decide (it.key = aKeyValuePair.1)) with
  | some curr =>
    let m' := updateTable hash m aKeyValuePair
    ⟨m', ⟨some {curr with mKeyValuePair := (curr.mKeyValuePair.1, aKeyValuePair.2)}, bucketSpot, some m'⟩, true⟩
  | none =>
    let m2 := insertResize hash m aKeyValuePair
    ⟨m2, ⟨some ⟨m.mNextId, aKeyValuePair, none⟩, bucketSpot, some m2⟩, false⟩

/-- Scan of the bucket vector for the first non-null chain head, starting
at the given index; returns the head and its bucket index.  Used by
`getFirstItem` (scan from `0`) and by the bucket-scanning phase of
`getNextItem` (scan from the current position plus one). -/
def firstNonEmpty : List (List (Item K V)) → Nat → Option (Item K V × Nat)
  | [], _ => none
  | [] :: rest, i => firstNonEmpty rest (i + 1)
  | (it :: _) :: _, i => some (it, i)

/-- The method `getFirstItem()` (mutable overload, hash_map.h:616-638):
`(0, 0)` for an empty map, otherwise the head of the first non-empty
bucket in index order (the `assert(false)` fallback for a non-empty map
with all-empty buckets also yields `(0, 0)`). -/
def HashMap.getFirstItem (m : HashMap K V) : Option (Item K V) × Nat :=
  if m.mNumEntries = 0 then (none, 0)
  else
    match firstNonEmpty m.mBuckets 0 with
    | some (it, i) => (some it, i)
    | none => (none, 0)

/-- The method `begin()` (mutable overload, hash_map.h:410-415):
`iterator(getFirstItem().first, getFirstItem().second, this)`. -/
def HashMap.begin (m : HashMap K V) : Iterator K V :=
  ⟨m.getFirstItem.1, m.getFirstItem.2, some m⟩

/-- Successor of the node with address `n` inside one chain: the node its
`mNext` pointer reaches, read through the chain structure (`none` when the
node is the chain tail or absent). -/
def chainSucc : List (Item K V) → Nat → Option (Item K V)
  | [], _ => none
  | [_], _ => none
  | a :: b :: rest, n => if a.id = n then some b else chainSucc (b :: rest) n

/-- The method `getNextItem(aItemPair)` (const overload, hash_map.h:586-606):
if the current node's `mNext` is non-null, move to it keeping the bucket
position; otherwise scan buckets at strictly larger indices and return the
first non-null chain head; otherwise `(0, 0)`. -/
def HashMap.getNextItem (m : HashMap K V) (aItemPair : Item K V × Nat) :
    Option (Item K V) × Nat :=
  match chainSucc (chainAt m aItemPair.2) aItemPair.1.id with
  | some nxt => (some nxt, aItemPair.2)
  | none =>
    match firstNonEmpty (m.mBuckets.drop (aItemPair.2 + 1)) (aItemPair.2 + 1) with
    | some (it, i) => (some it, i)
    | none => (none, 0)

/-- The equality operator of the mutable iterator (hash_map.h:696-699):
`mCurrentItem == aOther.mCurrentItem`, i.e. pointer equality of the items
(equality of the ghost addresses) together with equality of the bucket
positions; `mParent` is not compared. -/
def Iterator.beq (a b : Iterator K V) : Bool :=
  (a.item.map Item.id == b.item.map Item.id) && (a.bucket == b.bucket)

/-- The equality operator of the constant iterator (hash_map.h:785-788),
with the identical comparison. -/
def ConstIterator.beq (a b : ConstIterator K V) : Bool :=
  (a.item.map Item.id == b.item.map Item.id) && (a.bucket == b.bucket)

/-- The converting constructor `const_iterator(iterator&)`
(hash_map.h:776-779): copies `mCurrentItem` and `mParent`. -/
def ConstIterator.ofIterator (a : Iterator K V) : ConstIterator K V :=
  ⟨a.item, a.bucket, a.parent⟩

/-- The prefix increment of the constant iterator (hash_map.h:812-820):
`assert(mParent); mCurrentItem = mParent->getNextItem(mCurrentItem)`.
The precondition-violating cases (null parent, null current item) are
mapped to an arbitrary value. -/
def ConstIterator.inc (a : ConstIterator K V) : ConstIterator K V :=
  match a.parent, a.item with
  | some m, some x =>
    let p := HashMap.getNextItem m (x, a.bucket)
    ⟨p.1, p.2, a.parent⟩
  | _, _ => ⟨none, 0, a.parent⟩

/-- Dereference (`operator*`, hash_map.h:723-728 and 836-841): the stored
pair `mCurrentItem.first->mKeyValuePair`, embedded with `Option` since the
null sentinel must not be dereferenced. -/
def derefOpt (a : Iterator K V) : Option (K × V) := a.item.map Item.mKeyValuePair

/-- Whether some chain of the table holds a node with the given key. -/
def containsKey (m : HashMap K V) (k : K) : Bool :=
  m.mBuckets.any (fun c => c.any (fun it => decide (it.key = k)))

/-- Ghost-free view of a node: its address, key and value (everything an
iterator comparison or dereference can observe), without the `mNext`
mirror. -/
def core (it : Item K V) : Nat × K × V := (it.id, it.key, it.value)

/-- Observable outcome of `find`: the address, key and value of the node
the returned iterator designates (`none` for the end sentinel). -/
def findCore (m : HashMap K V) (k : K) : Option (Nat × K × V) :=
  (HashMap.find hash m k).item.map core

/-- Well-formedness of a table state, as established by the constructor
(for a positive size) and maintained by `insert` and `resize`:
the bucket vector has `mSize` slots, `mSize` is positive, every node
hangs in the bucket its key hashes to, no key occurs twice in a bucket,
and `mNumEntries` counts the reachable nodes. -/
def WF (m : HashMap K V) : Prop :=
  m.mBuckets.length = m.mSize ∧
  0 < m.mSize ∧
  (∀ j < m.mBuckets.length, ∀ it ∈ chainAt m j, hash it.key % m.mSize = j) ∧
  (∀ j < m.mBuckets.length, ((chainAt m j).map Item.key).Nodup) ∧
  m.mNumEntries = (m.mBuckets.map List.length).sum

instance (m : HashMap K V) : Decidable (WF hash m) := by
  unfold WF; infer_instance

/-- A sequence of `insert` calls, left to right, keeping the mutated
table. -/
def insertAll (m : HashMap K V) (ps : List (K × V)) : HashMap K V :=
  ps.foldl (fun acc kv => (HashMap.insert hash acc kv).table) m

/-- Spec reading of the chain-successor step of the iterator increment
("if the current Entry has a successor in its chain, advance to it"):
the element following the first occurrence of the current node in its
chain. -/
def specChainSuccessor (c : List (Item K V)) (n : Nat) : Option (Item K V) :=
  match c.dropWhile (fun it => decide (it.id ≠ n)) with
  | _ :: y :: _ => some y
  | _ => none

/-- Modelled from the spec: the `Atom` collaborator
(util/base/include/atom.h, which is not under src/) — an identity-bearing
object exposing a stable string identifier through `getID`.  The `tag`
field models object identity, so two distinct Atom instances sharing one
identifier are distinguishable values. -/
structure Atom where
  tag : Nat
  mUniqueID : String
deriving DecidableEq

/-- The identifier accessor `Atom::getID`. -/
def Atom.getID (a : Atom) : String := a.mUniqueID

/-- Embedding of `AtomRegistry` (atom_registry.cpp): the internal
`HashMap<string, boost::shared_ptr<Atom>>` (the shared pointer to an atom
is embedded as the `Atom` value itself, whose `tag` carries the instance
identity) and the teardown flag. -/
structure AtomRegistry where
  mAtoms : HashMap String Atom
  mIsCurrentlyDeallocating : Bool
deriving DecidableEq

/-- The constant `getInitialSize()` (atom_registry.cpp:108-111). -/
def AtomRegistry.getInitialSize : Nat := 103

/-- The private constructor (atom_registry.cpp:22-24): a fresh map of
`getInitialSize()` slots, with the teardown flag cleared. -/
def mkAtomRegistry : AtomRegistry :=
  ⟨mkHashMap AtomRegistry.getInitialSize, false⟩

/-- The accessor `isCurrentlyDeallocating()` (atom_registry.cpp:101-103). -/
def AtomRegistry.isCurrentlyDeallocating (r : AtomRegistry) : Bool :=
  r.mIsCurrentlyDeallocating

/-- The method `findAtom(aID)` (atom_registry.cpp:56-59): look `aID` up in
the internal table; if the iterator differs from `end()`, return the
stored atom, else the null pointer (`none`). -/
def AtomRegistry.findAtom (shash : String → Nat) (r : AtomRegistry) (aID : String) :
    Option Atom :=
  let iter := ConstIterator.ofIterator (HashMap.find shash r.mAtoms aID)
  if ConstIterator.beq iter (ConstIterator.ofIterator Iterator.endIter) then none
  else iter.item.map Item.value

/-- Outcome of `registerAtom`: the registry after the call, the returned
boolean, whether the passed-in atom was destroyed (the `shared_ptr`
wrapper releases it when the function returns without storing it), and
whether the duplicate-registration diagnostic was printed. -/
structure RegisterResult where
  registry : AtomRegistry
  returned : Bool
  inputDestroyed : Bool
  diagnosticEmitted : Bool
deriving DecidableEq

/-- The method `registerAtom(aAtom)` (atom_registry.cpp:71-92): if
`findAtom(aAtom->getID())` succeeds, print the duplicate diagnostic and
return `false` (the wrapped atom is released and the registry is left
untouched); otherwise insert the atom keyed by its identifier and return
`true`. -/
def AtomRegistry.registerAtom (shash : String → Nat) (r : AtomRegistry) (aAtom : Atom) :
    RegisterResult :=
  match AtomRegistry.findAtom shash r aAtom.getID with
  | some _ => ⟨r, false, true, true⟩
  | none =>
    ⟨⟨(HashMap.insert shash r.mAtoms (aAtom.getID, aAtom)).table,
      r.mIsCurrentlyDeallocating⟩, true, false, false⟩

/-- Concrete run for claim C9: inserting the key `1` (identity hash) into
a freshly constructed table of capacity 1 — the insert adds the entry at
`bucketSpot = 1 % 1 = 0` and then resizes to `1 * 3 + 5 = 8` slots, where
the key rehashes to bucket `1 % 8 = 1`. -/
def c9run : InsertResult Nat Nat :=
  HashMap.insert (fun n => n) (mkHashMap 1) (1, 10)

/-- Concrete run for claim C2: nine distinct keys (identity hash) in a
capacity-23 table — the load factor stays at or below 0.4 throughout, so
no resize has happened yet. -/
def c2table9 : HashMap Nat Nat :=
  insertAll (fun n => n) (mkHashMap 23)
    [(0, 0), (1, 1), (2, 2), (3, 3), (4, 4), (5, 5), (6, 6), (7, 7), (8, 8)]

/-- A small concrete table (identity hash, capacity 3, one entry with key
1 stored at bucket 1) used to instantiate several theorems. -/
def c3table : HashMap Nat Nat :=
  insertAll (fun n => n) (mkHashMap 3) [(1, 10)]

/-! Basic list bookkeeping lemmas. -/

theorem getD_replicate {α : Type _} (a : α) :
    ∀ (n j : Nat), (List.replicate n a).getD j a = a := by
  intro n
  induction n with
  | zero => intro j; cases j <;> rfl
  | succ n ih =>
    intro j
    cases j with
    | zero => rfl
    | succ j => simp only [List.replicate, List.getD_cons_succ]; exact ih j

theorem getD_lt {α : Type _} (B : List α) (j : Nat) (d : α) (h : j < B.length) :
    B.getD j d = B[j] := by
  simp [List.getD_eq_getElem?_getD, List.getElem?_eq_getElem h]

theorem getD_ge {α : Type _} (B : List α) (j : Nat) (d : α) (h : B.length ≤ j) :
    B.getD j d = d := by
  simp [List.getD_eq_getElem?_getD, List.getElem?_eq_none h]

theorem getD_mem {α : Type _} (B : List α) (j : Nat) (d : α) (h : j < B.length) :
    B.getD j d ∈ B := by
  rw [getD_lt B j d h]; exact List.getElem_mem h

theorem getD_set_self {α : Type _} (B : List α) (i : Nat) (c : α) (d : α)
    (h : i < B.length) : (B.set i c).getD i d = c := by
  simp [List.getD_eq_getElem?_getD, List.getElem?_set_self h]

theorem getD_set_ne {α : Type _} (B : List α) (i j : Nat) (c : α) (d : α)
    (h : i ≠ j) : (B.set i c).getD j d = B.getD j d := by
  simp [List.getD_eq_getElem?_getD, List.getElem?_set_ne h]

theorem sum_map_length_set {α : Type _} :
    ∀ (B : List (List α)) (i : Nat) (c : List α), i < B.length →
      ((B.set i c).map List.length).sum + (B.getD i []).length
        = (B.map List.length).sum + c.length := by
  intro B
  induction B with
  | nil => intro i c h; simp at h
  | cons b B ih =>
    intro i c h
    cases i with
    | zero => simp [List.set]; omega
    | succ i =>
      have h' : i < B.length := by simpa using h
      have := ih i c h'
      simp only [List.set, List.map_cons, List.sum_cons, List.getD_cons_succ]
      omega

theorem mem_getD_of_mem_flatten {α : Type _} {B : List (List α)} {x : α}
    (h : x ∈ B.flatten) : ∃ j, j < B.length ∧ x ∈ B.getD j [] := by
  rcases List.mem_flatten.mp h with ⟨c, hc, hx⟩
  rcases List.mem_iff_getElem.mp hc with ⟨j, hj, rfl⟩
  exact ⟨j, hj, by rwa [getD_lt _ _ _ hj]⟩

theorem mem_flatten_of_mem_getD {α : Type _} {B : List (List α)} {x : α} {j : Nat}
    (h : x ∈ B.getD j []) : x ∈ B.flatten := by
  by_cases hj : j < B.length
  · exact List.mem_flatten.mpr ⟨B.getD j [], getD_mem B j [] hj, h⟩
  · rw [getD_ge B j [] (le_of_not_lt hj)] at h; cases h

theorem find?_append_none {α : Type _} {p : α → Bool} {l1 l2 : List α}
    (h : l1.find? p = none) : (l1 ++ l2).find? p = l2.find? p := by
  induction l1 with
  | nil => rfl
  | cons a t ih =>
    by_cases hp : p a = true
    · rw [List.find?_cons_of_pos t hp] at h; cases h
    · rw [List.find?_cons_of_neg t hp] at h
      rw [List.cons_append, List.find?_cons_of_neg _ hp]
      exact ih h

theorem find?_append_some {α : Type _} {p : α → Bool} {l1 l2 : List α} {a : α}
    (h : l1.find? p = some a) : (l1 ++ l2).find? p = some a := by
  induction l1 with
  | nil => cases h
  | cons b t ih =>
    by_cases hp : p b = true
    · rw [List.find?_cons_of_pos t hp] at h
      rw [List.cons_append, List.find?_cons_of_pos _ hp]
      exact h
    · rw [List.find?_cons_of_neg t hp] at h
      rw [List.cons_append, List.find?_cons_of_neg _ hp]
      exact ih h

theorem find?_proj_unique {α β : Type _} [DecidableEq β] (f : α → β) :
    ∀ {l : List α} {a : α}, (l.map f).Nodup → a ∈ l →
      l.find? (fun x => decide (f x = f a)) = some a := by
  intro l
  induction l with
  | nil => intro a _ ha; cases ha
  | cons b t ih =>
    intro a hnd ha
    rw [List.map_cons, List.nodup_cons] at hnd
    rcases List.mem_cons.mp ha with rfl | hat
    · exact List.find?_cons_of_pos _ (by simp)
    · have hne : f b ≠ f a := by
        intro heq
        exact hnd.1 (heq ▸ List.mem_map_of_mem f hat)
      rw [List.find?_cons_of_neg _ (by simpa using hne)]
      exact ih hnd.2 hat

/-! Ghost-field projection lemmas: updating `mNext` (the pointer mirror)
changes nothing an iterator can observe, and overwriting the stored value
keeps the key and the address. -/

@[simp]
theorem Item.key_mk (i : Nat) (kv : K × V) (n : Option Nat) :
    (⟨i, kv, n⟩ : Item K V).key = kv.1 := rfl

@[simp]
theorem Item.value_mk (i : Nat) (kv : K × V) (n : Option Nat) :
    (⟨i, kv, n⟩ : Item K V).value = kv.2 := rfl

@[simp]
theorem Item.id_mk (i : Nat) (kv : K × V) (n : Option Nat) :
    (⟨i, kv, n⟩ : Item K V).id = i := rfl

theorem core_mk (i : Nat) (kv : K × V) (n : Option Nat) :
    core (⟨i, kv, n⟩ : Item K V) = (i, kv.1, kv.2) := rfl

theorem core_setNext (a : Item K V) (n : Option Nat) :
    core ({a with mNext := n} : Item K V) = core a := rfl

theorem key_setNext (a : Item K V) (n : Option Nat) :
    ({a with mNext := n} : Item K V).key = a.key := rfl

theorem key_setVal (a : Item K V) (v : V) :
    ({a with mKeyValuePair := (a.mKeyValuePair.1, v)} : Item K V).key = a.key := rfl

theorem value_setVal (a : Item K V) (v : V) :
    ({a with mKeyValuePair := (a.mKeyValuePair.1, v)} : Item K V).value = v := rfl

theorem id_setVal (a : Item K V) (v : V) :
    ({a with mKeyValuePair := (a.mKeyValuePair.1, v)} : Item K V).id = a.id := rfl

theorem key_core {it1 it2 : Item K V} (h : core it1 = core it2) : it1.key = it2.key := by
  have := congrArg (fun t : Nat × K × V => t.2.1) h
  simpa [core] using this

theorem map_key_of_map_core {c1 c2 : List (Item K V)}
    (h : c1.map core = c2.map core) : c1.map Item.key = c2.map Item.key := by
  have h2 := congrArg (List.map (fun t : Nat × K × V => t.2.1)) h
  simpa [List.map_map, Function.comp] using h2

theorem length_of_map_core {c1 c2 : List (Item K V)}
    (h : c1.map core = c2.map core) : c1.length = c2.length := by
  have h2 := congrArg List.length h
  simpa using h2

/-! Chain-operation lemmas. -/

theorem setTailNext_map_core (c : List (Item K V)) (n : Nat) :
    (setTailNext c n).map core = c.map core := by
  induction c with
  | nil => rfl
  | cons a rest ih =>
    cases rest with
    | nil => simp [setTailNext, core_setNext]
    | cons b rest' => simpa [setTailNext] using ih

theorem appendChain_map_core (c : List (Item K V)) (x : Item K V) :
    (appendChain c x).map core = c.map core ++ [core x] := by
  simp [appendChain, setTailNext_map_core]

theorem appendChain_map_key (c : List (Item K V)) (x : Item K V) :
    (appendChain c x).map Item.key = c.map Item.key ++ [x.key] := by
  have h := appendChain_map_core c x
  have h2 := congrArg (List.map (fun t : Nat × K × V => t.2.1)) h
  simpa [List.map_map, Function.comp, core] using h2

theorem appendChain_length (c : List (Item K V)) (x : Item K V) :
    (appendChain c x).length = c.length + 1 := by
  have h := congrArg List.length (appendChain_map_core c x)
  simpa using h

theorem find?_key_congr_core {k : K} :
    ∀ {c1 c2 : List (Item K V)}, c1.map core = c2.map core →
      (c1.find? (fun it => decide (it.key = k))).map core
        = (c2.find? (fun it => decide (it.key = k))).map core := by
  intro c1
  induction c1 with
  | nil =>
    intro c2 h
    cases c2 with
    | nil => rfl
    | cons b t => simp at h
  | cons a t ih =>
    intro c2 h
    cases c2 with
    | nil => simp at h
    | cons b t2 =>
      simp only [List.map_cons, List.cons.injEq] at h
      have hk : a.key = b.key := key_core h.1
      by_cases hak : a.key = k
      · rw [List.find?_cons_of_pos _ (by simpa using hak),
          List.find?_cons_of_pos _ (by simp only [decide_eq_true_eq, ← hk]; exact hak)]
        simpa using h.1
      · rw [List.find?_cons_of_neg _ (by simpa using hak),
          List.find?_cons_of_neg _ (by simp only [decide_eq_true_eq, ← hk]; exact hak)]
        exact ih h.2

theorem updateFirst_map_key (c : List (Item K V)) (k : K) (v : V) :
    (updateFirst c k v).map Item.key = c.map Item.key := by
  induction c with
  | nil => rfl
  | cons a rest ih =>
    by_cases h : a.key = k
    · simp only [updateFirst, if_pos h, List.map_cons, key_setVal]
    · simp [updateFirst, h, ih]

theorem updateFirst_find?_self (c : List (Item K V)) (k : K) (v : V) :
    (updateFirst c k v).find? (fun it => decide (it.key = k))
      = (c.find? (fun it => decide (it.key = k))).map
          (fun a => {a with mKeyValuePair := (a.mKeyValuePair.1, v)}) := by
  induction c with
  | nil => rfl
  | cons a rest ih =>
    by_cases h : a.key = k
    · rw [updateFirst, if_pos h,
        List.find?_cons_of_pos _ (by rw [decide_eq_true_eq, key_setVal]; exact h),
        List.find?_cons_of_pos _ (by simpa using h)]
      rfl
    · rw [updateFirst, if_neg h, List.find?_cons_of_neg _ (by simpa using h),
        List.find?_cons_of_neg _ (by simpa using h)]
      exact ih

theorem updateFirst_find?_other (c : List (Item K V)) (k : K) (v : V) (k' : K)
    (hne : k' ≠ k) :
    (updateFirst c k v).find? (fun it => decide (it.key = k'))
      = c.find? (fun it => decide (it.key = k')) := by
  induction c with
  | nil => rfl
  | cons a rest ih =>
    by_cases h : a.key = k
    · have hk' : ¬ a.key = k' := by rw [h]; exact fun hh => hne hh.symm
      rw [updateFirst, if_pos h,
        List.find?_cons_of_neg _ (by simp only [decide_eq_true_eq, key_setVal]; exact hk'),
        List.find?_cons_of_neg _ (by simpa using hk')]
    · by_cases h2 : a.key = k'
      · rw [updateFirst, if_neg h, List.find?_cons_of_pos _ (by simpa using h2),
          List.find?_cons_of_pos _ (by simpa using h2)]
      · rw [updateFirst, if_neg h, List.find?_cons_of_neg _ (by simpa using h2),
          List.find?_cons_of_neg _ (by simpa using h2)]
        exact ih

theorem updateFirst_length (c : List (Item K V)) (k : K) (v : V) :
    (updateFirst c k v).length = c.length := by
  have h := congrArg List.length (updateFirst_map_key c k v)
  simpa using h

theorem clearLinks_map_core (l : List (Item K V)) :
    (clearLinks l).map core = l.map core := by
  simp only [clearLinks, List.map_map]
  exact List.map_congr_left fun a _ => rfl

theorem clearLinks_map_key (l : List (Item K V)) :
    (clearLinks l).map Item.key = l.map Item.key :=
  map_key_of_map_core (clearLinks_map_core l)

theorem clearLinks_length (l : List (Item K V)) :
    (clearLinks l).length = l.length :=
  length_of_map_core (clearLinks_map_core l)

/-! Characterizations of `containsKey`, well-formedness consequences, and
the behaviour of `find`. -/

theorem chainAt_mkHashMap (cap j : Nat) :
    chainAt (mkHashMap (K := K) (V := V) cap) j = [] :=
  getD_replicate [] cap j

theorem WF_mkHashMap (cap : Nat) (h : 0 < cap) :
    WF hash (mkHashMap (K := K) (V := V) cap) := by
  refine ⟨by simp [mkHashMap], by simpa [mkHashMap] using h, ?_, ?_, ?_⟩
  · intro j hj it hit
    rw [chainAt_mkHashMap] at hit
    cases hit
  · intro j hj
    rw [chainAt_mkHashMap]
    simp
  · simp [mkHashMap]

theorem containsKey_iff {m : HashMap K V} {k : K} :
    containsKey m k = true
      ↔ ∃ j, j < m.mBuckets.length ∧ ∃ it ∈ chainAt m j, it.key = k := by
  constructor
  · intro h
    rcases List.any_eq_true.mp h with ⟨c, hc, hc2⟩
    rcases List.any_eq_true.mp hc2 with ⟨it, hit, hk⟩
    rcases List.mem_iff_getElem.mp hc with ⟨j, hj, hcj⟩
    refine ⟨j, hj, it, ?_, of_decide_eq_true hk⟩
    rw [chainAt, getD_lt _ _ _ hj, hcj]
    exact hit
  · rintro ⟨j, hj, it, hit, hk⟩
    apply List.any_eq_true.mpr
    refine ⟨chainAt m j, getD_mem _ _ _ hj, List.any_eq_true.mpr ⟨it, hit, by simp [hk]⟩⟩

theorem containsKey_false_iff {m : HashMap K V} {k : K} :
    containsKey m k = false ↔ ∀ j, ∀ it ∈ chainAt m j, it.key ≠ k := by
  rw [← Bool.not_eq_true, containsKey_iff]
  constructor
  · intro h j it hit hk
    by_cases hj : j < m.mBuckets.length
    · exact h ⟨j, hj, it, hit, hk⟩
    · rw [chainAt, getD_ge _ _ _ (le_of_not_lt hj)] at hit
      cases hit
  · rintro h ⟨j, hj, it, hit, hk⟩
    exact h j it hit hk

theorem global_key_nodup {m : HashMap K V} (h : WF hash m) :
    ((collectEntries m).map Item.key).Nodup := by
  obtain ⟨hlen, hpos, hbucket, hnodup, hcount⟩ := h
  rw [collectEntries, List.map_flatten]
  rw [List.nodup_flatten]
  constructor
  · intro l hl
    rcases List.mem_map.mp hl with ⟨c, hc, rfl⟩
    rcases List.mem_iff_getElem.mp hc with ⟨j, hj, rfl⟩
    have := hnodup j hj
    rwa [chainAt, getD_lt _ _ _ hj] at this
  · rw [List.pairwise_iff_getElem]
    intro i j hi hj hij
    simp only [List.length_map] at hi hj
    rw [List.getElem_map, List.getElem_map]
    intro a hai haj
    rcases List.mem_map.mp hai with ⟨it1, hit1, hk1⟩
    rcases List.mem_map.mp haj with ⟨it2, hit2, hk2⟩
    have h1 : hash it1.key % m.mSize = i := by
      apply hbucket i hi
      rw [chainAt, getD_lt _ _ _ hi]
      exact hit1
    have h2 : hash it2.key % m.mSize = j := by
      apply hbucket j hj
      rw [chainAt, getD_lt _ _ _ hj]
      exact hit2
    rw [hk1] at h1
    rw [hk2] at h2
    omega

theorem find_eq_endIter_of_not_contains {m : HashMap K V} {k : K}
    (hc : containsKey m k = false) :
    HashMap.find hash m k = Iterator.endIter := by
  have hnone : (chainAt m (hash k % m.mSize)).find? (fun it => decide (it.key = k)) = none := by
    apply List.find?_eq_none.mpr
    intro it hit
    simpa using (containsKey_false_iff.mp hc) _ it hit
  simp [HashMap.find, hnone]

theorem find_of_contains {m : HashMap K V} {k : K} (h : WF hash m)
    (hc : containsKey m k = true) :
    ∃ it, it ∈ chainAt m (hash k % m.mSize) ∧ it.key = k ∧
      HashMap.find hash m k = ⟨some it, hash k % m.mSize, some m⟩ := by
  obtain ⟨j, hj, it, hit, hk⟩ := containsKey_iff.mp hc
  have hbj : hash it.key % m.mSize = j := h.2.2.1 j hj it hit
  have hjj : hash k % m.mSize = j := by rw [← hk]; exact hbj
  have hex : ∃ x ∈ chainAt m (hash k % m.mSize), (fun x => decide (x.key = k)) x = true :=
    ⟨it, by rwa [hjj], by simp [hk]⟩
  have hsome := List.find?_isSome.mpr hex
  rcases Option.isSome_iff_exists.mp hsome with ⟨a, ha⟩
  refine ⟨a, List.mem_of_find?_eq_some ha, by simpa using List.find?_some ha, ?_⟩
  simp [HashMap.find, ha]

theorem find_eq_endIter_of_item_none {m : HashMap K V} {k : K}
    (h : (HashMap.find hash m k).item = none) :
    HashMap.find hash m k = Iterator.endIter := by
  rcases hfind : (chainAt m (hash k % m.mSize)).find? (fun it => decide (it.key = k)) with _ | a
  · simp [HashMap.find, hfind]
  · exfalso
    have : (HashMap.find hash m k).item = some a := by simp [HashMap.find, hfind]
    rw [this] at h
    cases h

theorem findCore_none_of_not_contains {m : HashMap K V} {k : K}
    (hc : containsKey m k = false) : findCore hash m k = none := by
  rw [findCore, find_eq_endIter_of_not_contains hash hc]
  rfl

theorem containsKey_eq_isSome {m : HashMap K V} {k : K} (h : WF hash m) :
    containsKey m k = (findCore hash m k).isSome := by
  cases hc : containsKey m k with
  | false => rw [findCore_none_of_not_contains hash hc]; rfl
  | true =>
    obtain ⟨it, _, _, hf⟩ := find_of_contains hash h hc
    rw [findCore, hf]
    rfl

theorem derefOpt_find (m : HashMap K V) (k : K) :
    derefOpt (HashMap.find hash m k)
      = (findCore hash m k).map (fun t => (t.2.1, t.2.2)) := by
  rw [findCore, derefOpt]
  cases (HashMap.find hash m k).item with
  | none => rfl
  | some it => rfl

/-! The reinsertion loop of `resize`: bucket `j` of the rebuilt vector
holds, in collection order, exactly the collected nodes whose keys hash
to `j` under the new size. -/

theorem reinsert_fold_spec (s : Nat) (hs : 0 < s) :
    ∀ (l : List (Item K V)) (bs : List (List (Item K V))), bs.length = s →
      (l.foldl (reinsertStep hash s) bs).length = s ∧
      ((l.foldl (reinsertStep hash s) bs).map List.length).sum
        = (bs.map List.length).sum + l.length ∧
      ∀ j, ((l.foldl (reinsertStep hash s) bs).getD j []).map core
        = ((bs.getD j []).map core)
            ++ ((l.filter (fun it => decide (hash it.key % s = j))).map core) := by
  intro l
  induction l with
  | nil => intro bs hbs; simp [hbs]
  | cons it rest ih =>
    intro bs hbs
    have hi : hash it.key % s < s := Nat.mod_lt _ hs
    have hib : hash it.key % s < bs.length := by rw [hbs]; exact hi
    have hlen' : (reinsertStep hash s bs it).length = s := by
      simp [reinsertStep, hbs]
    obtain ⟨L1, L2, L3⟩ := ih (reinsertStep hash s bs it) hlen'
    rw [List.foldl_cons]
    refine ⟨L1, ?_, ?_⟩
    · rw [L2]
      have hsum := sum_map_length_set bs (hash it.key % s)
        (appendChain (bs.getD (hash it.key % s) []) it) hib
      rw [appendChain_length] at hsum
      simp only [reinsertStep, List.length_cons]
      omega
    · intro j
      rw [L3 j]
      by_cases hj : hash it.key % s = j
      · rw [show reinsertStep hash s bs it
            = bs.set (hash it.key % s) (appendChain (bs.getD (hash it.key % s) []) it)
            from rfl, hj, getD_set_self _ _ _ _ (by rw [hbs, ← hj]; exact hi),
          appendChain_map_core, List.filter_cons_of_pos (by simp [hj])]
        simp [List.append_assoc, core]
      · rw [show reinsertStep hash s bs it
            = bs.set (hash it.key % s) (appendChain (bs.getD (hash it.key % s) []) it)
            from rfl, getD_set_ne _ _ _ _ _ hj,
          List.filter_cons_of_neg (by simp [hj])]

theorem resize_spec {m : HashMap K V} (newSize : Nat) (hpos : 0 < newSize)
    (hne : newSize ≠ m.mSize) :
    (HashMap.resize hash m newSize).mSize = newSize ∧
    (HashMap.resize hash m newSize).mNumEntries = m.mNumEntries ∧
    (HashMap.resize hash m newSize).mNextId = m.mNextId ∧
    (HashMap.resize hash m newSize).mBuckets.length = newSize ∧
    ((HashMap.resize hash m newSize).mBuckets.map List.length).sum
      = (clearLinks (collectEntries m)).length ∧
    ∀ j, (chainAt (HashMap.resize hash m newSize) j).map core
      = ((clearLinks (collectEntries m)).filter
          (fun it => decide (hash it.key % newSize = j))).map core := by
  have hrw : HashMap.resize hash m newSize =
      { mBuckets := (clearLinks (collectEntries m)).foldl (reinsertStep hash newSize)
          (List.replicate newSize []),
        mSize := newSize,
        mNumEntries := m.mNumEntries,
        mNextId := m.mNextId } := by
    rw [HashMap.resize, if_neg hne]
  obtain ⟨F1, F2, F3⟩ := reinsert_fold_spec hash newSize hpos
    (clearLinks (collectEntries m)) (List.replicate newSize []) (by simp)
  refine ⟨by rw [hrw], by rw [hrw], by rw [hrw], by rw [hrw]; exact F1, ?_, ?_⟩
  · rw [hrw]
    simpa using F2
  · intro j
    rw [hrw]
    have := F3 j
    rw [getD_replicate] at this
    simpa [chainAt] using this

theorem resize_WF {m : HashMap K V} (h : WF hash m) (newSize : Nat)
    (hpos : 0 < newSize) : WF hash (HashMap.resize hash m newSize) := by
  by_cases hne : newSize = m.mSize
  · rw [HashMap.resize, if_pos hne]
    exact h
  · obtain ⟨S1, S2, S3, S4, S5, S6⟩ := resize_spec hash newSize hpos hne (m := m)
    refine ⟨by rw [S1, S4], by rw [S1]; exact hpos, ?_, ?_, ?_⟩
    · intro j hj it hit
      have hkmem : it.key ∈ (chainAt (HashMap.resize hash m newSize) j).map Item.key :=
        List.mem_map_of_mem Item.key hit
      rw [map_key_of_map_core (S6 j)] at hkmem
      rcases List.mem_map.mp hkmem with ⟨it2, hit2, hk2⟩
      have := (List.mem_filter.mp hit2).2
      rw [S1, ← hk2]
      simpa using this
    · intro j hj
      rw [map_key_of_map_core (S6 j)]
      apply List.Nodup.sublist (List.Sublist.map Item.key (List.filter_sublist _))
      rw [clearLinks_map_key]
      exact global_key_nodup hash h
    · rw [S2, S5, clearLinks_length, collectEntries, List.length_flatten]
      exact h.2.2.2.2

theorem resize_findCore {m : HashMap K V} (h : WF hash m) (newSize : Nat)
    (hpos : 0 < newSize) (k : K) :
    findCore hash (HashMap.resize hash m newSize) k = findCore hash m k := by
  by_cases hne : newSize = m.mSize
  · rw [HashMap.resize, if_pos hne]
  · obtain ⟨S1, S2, S3, S4, S5, S6⟩ := resize_spec hash newSize hpos hne (m := m)
    cases hc : containsKey m k with
    | false =>
      rw [findCore_none_of_not_contains hash hc]
      apply findCore_none_of_not_contains
      apply containsKey_false_iff.mpr
      intro j it hit hk
      have hkmem : it.key ∈ (chainAt (HashMap.resize hash m newSize) j).map Item.key :=
        List.mem_map_of_mem Item.key hit
      rw [map_key_of_map_core (S6 j)] at hkmem
      rcases List.mem_map.mp hkmem with ⟨it2, hit2, hk2⟩
      have hit2c : it2 ∈ clearLinks (collectEntries m) := (List.mem_filter.mp hit2).1
      have hkey2 : it2.key ∈ (clearLinks (collectEntries m)).map Item.key :=
        List.mem_map_of_mem Item.key hit2c
      rw [clearLinks_map_key] at hkey2
      rcases List.mem_map.mp hkey2 with ⟨it3, hit3, hk3⟩
      rcases mem_getD_of_mem_flatten hit3 with ⟨j0, hj0, hmem0⟩
      have : it3.key ≠ k := (containsKey_false_iff.mp hc) j0 it3 hmem0
      exact this (by rw [hk3, hk2, hk])
    | true =>
      obtain ⟨it0, hmem0, hkey0, hfind0⟩ := find_of_contains hash h hc
      have hcollect : it0 ∈ collectEntries m := mem_flatten_of_mem_getD hmem0
      have hcl : ({it0 with mNext := none} : Item K V) ∈ clearLinks (collectEntries m) :=
        List.mem_map_of_mem _ hcollect
      have hclkey : ({it0 with mNext := none} : Item K V).key = k := by
        rw [key_setNext]; exact hkey0
      have hfilter : ({it0 with mNext := none} : Item K V)
          ∈ (clearLinks (collectEntries m)).filter
            (fun it => decide (hash it.key % newSize = hash k % newSize)) := by
        apply List.mem_filter.mpr
        exact ⟨hcl, by rw [hclkey]; simp⟩
      have hndfilter : (((clearLinks (collectEntries m)).filter
          (fun it => decide (hash it.key % newSize = hash k % newSize))).map Item.key).Nodup := by
        apply List.Nodup.sublist (List.Sublist.map Item.key (List.filter_sublist _))
        rw [clearLinks_map_key]
        exact global_key_nodup hash h
      have hfound := find?_proj_unique Item.key hndfilter hfilter
      rw [hclkey] at hfound
      have hchain := find?_key_congr_core (k := k) (S6 (hash k % newSize))
      rw [hfound] at hchain
      have hsize : (HashMap.resize hash m newSize).mSize = newSize := S1
      rcases hfind' : (chainAt (HashMap.resize hash m newSize) (hash k % newSize)).find?
          (fun it => decide (it.key = k)) with _ | a
      · rw [hfind'] at hchain
        cases hchain
      · rw [hfind'] at hchain
        have hcorea : core a = core it0 := by
          have h2 : some (core a) = some (core ({it0 with mNext := none} : Item K V)) := hchain
          rw [core_setNext] at h2
          exact Option.some.inj h2
        have hitem : (HashMap.find hash (HashMap.resize hash m newSize) k).item = some a := by
          simp [HashMap.find, hsize, hfind']
        simp only [findCore]
        rw [hitem, hfind0]
        simp [hcorea]

/-! Lemmas about the two branches of `insert`. -/

theorem findCore_eq (m : HashMap K V) (k : K) :
    findCore hash m k
      = ((chainAt m (hash k % m.mSize)).find? (fun it => decide (it.key = k))).map core := by
  rcases hf : (chainAt m (hash k % m.mSize)).find? (fun it => decide (it.key = k)) with _ | a
  · rw [hf]
    simp [findCore, HashMap.find, hf, Iterator.endIter]
  · rw [hf]
    simp [findCore, HashMap.find, hf]

theorem chain_find?_none_of_not_contains {m : HashMap K V} {k : K}
    (hc : containsKey m k = false) :
    (chainAt m (hash k % m.mSize)).find? (fun it => decide (it.key = k)) = none := by
  apply List.find?_eq_none.mpr
  intro it hit
  simpa using containsKey_false_iff.mp hc _ it hit

theorem chain_find?_of_contains {m : HashMap K V} {k : K} (h : WF hash m)
    (hc : containsKey m k = true) :
    ∃ it0, (chainAt m (hash k % m.mSize)).find? (fun it => decide (it.key = k)) = some it0
      ∧ it0.key = k := by
  obtain ⟨j, hj, it, hit, hk⟩ := containsKey_iff.mp hc
  have hjj : hash k % m.mSize = j := by rw [← hk]; exact h.2.2.1 j hj it hit
  have hmem : it ∈ chainAt m (hash k % m.mSize) := by rw [hjj]; exact hit
  have hsome : ((chainAt m (hash k % m.mSize)).find?
      (fun it => decide (it.key = k))).isSome = true :=
    List.find?_isSome.mpr ⟨it, hmem, decide_eq_true hk⟩
  rcases Option.isSome_iff_exists.mp hsome with ⟨a, ha⟩
  exact ⟨a, ha, by simpa using List.find?_some ha⟩

theorem key_mem_of_mem_setTailNext {c : List (Item K V)} {n : Nat} {y : Item K V}
    (hy : y ∈ setTailNext c n) : y.key ∈ c.map Item.key := by
  have h := List.mem_map_of_mem Item.key hy
  rwa [map_key_of_map_core (setTailNext_map_core c n)] at h

theorem insertRaw_mSize (m : HashMap K V) (kv : K × V) :
    (insertRaw hash m kv).mSize = m.mSize := rfl

theorem insertRaw_mNumEntries (m : HashMap K V) (kv : K × V) :
    (insertRaw hash m kv).mNumEntries = m.mNumEntries + 1 := rfl

theorem insertRaw_mNextId (m : HashMap K V) (kv : K × V) :
    (insertRaw hash m kv).mNextId = m.mNextId + 1 := rfl

theorem insertRaw_length (m : HashMap K V) (kv : K × V) :
    (insertRaw hash m kv).mBuckets.length = m.mBuckets.length := by
  simp [insertRaw]

theorem chainAt_insertRaw_self {m : HashMap K V} (kv : K × V)
    (hi : hash kv.1 % m.mSize < m.mBuckets.length) :
    chainAt (insertRaw hash m kv) (hash kv.1 % m.mSize)
      = appendChain (chainAt m (hash kv.1 % m.mSize)) ⟨m.mNextId, kv, none⟩ := by
  simp only [chainAt, insertRaw]
  exact getD_set_self _ _ _ _ hi

theorem chainAt_insertRaw_other {m : HashMap K V} (kv : K × V) (j : Nat)
    (hne : hash kv.1 % m.mSize ≠ j) :
    chainAt (insertRaw hash m kv) j = chainAt m j := by
  simp only [chainAt, insertRaw]
  exact getD_set_ne _ _ _ _ _ hne

theorem insertRaw_WF {m : HashMap K V} (h : WF hash m) (kv : K × V)
    (hc : containsKey m kv.1 = false) : WF hash (insertRaw hash m kv) := by
  obtain ⟨hlen, hpos, hbucket, hnodup, hcount⟩ := h
  have hi : hash kv.1 % m.mSize < m.mSize := Nat.mod_lt _ hpos
  have hi' : hash kv.1 % m.mSize < m.mBuckets.length := by rw [hlen]; exact hi
  have hknot : ∀ it ∈ chainAt m (hash kv.1 % m.mSize), it.key ≠ kv.1 :=
    fun it hit => containsKey_false_iff.mp hc _ it hit
  refine ⟨by simp [insertRaw, hlen], hpos, ?_, ?_, ?_⟩
  · intro j hj it hit
    rw [insertRaw_mSize]
    by_cases hji : hash kv.1 % m.mSize = j
    · rw [← hji, chainAt_insertRaw_self hash kv hi'] at hit
      rw [← hji]
      rcases List.mem_append.mp hit with hl | hr
      · have hk := key_mem_of_mem_setTailNext hl
        rcases List.mem_map.mp hk with ⟨it2, hit2, hk2⟩
        rw [← hk2]
        exact hbucket _ hi' it2 hit2
      · have : it = ⟨m.mNextId, kv, none⟩ := by simpa using hr
        rw [this]
        rfl
    · rw [chainAt_insertRaw_other hash kv j hji] at hit
      rw [insertRaw_length] at hj
      exact hbucket j hj it hit
  · intro j hj
    by_cases hji : hash kv.1 % m.mSize = j
    · rw [← hji, chainAt_insertRaw_self hash kv hi', appendChain_map_key]
      rw [List.nodup_append]
      refine ⟨hnodup _ hi', by simp, ?_⟩
      intro x hx hx2
      have : x = Item.key (⟨m.mNextId, kv, none⟩ : Item K V) := by simpa using hx2
      rcases List.mem_map.mp hx with ⟨it2, hit2, hk2⟩
      exact hknot it2 hit2 (by rw [hk2, this]; rfl)
    · rw [chainAt_insertRaw_other hash kv j hji]
      rw [insertRaw_length] at hj
      exact hnodup j hj
  · rw [insertRaw_mNumEntries]
    have hsum := sum_map_length_set m.mBuckets (hash kv.1 % m.mSize)
      (appendChain (chainAt m (hash kv.1 % m.mSize)) ⟨m.mNextId, kv, none⟩) hi'
    rw [appendChain_length] at hsum
    have : (insertRaw hash m kv).mBuckets
        = m.mBuckets.set (hash kv.1 % m.mSize)
            (appendChain (chainAt m (hash kv.1 % m.mSize)) ⟨m.mNextId, kv, none⟩) := rfl
    rw [this]
    have hcg : m.mBuckets.getD (hash kv.1 % m.mSize) []
        = chainAt m (hash kv.1 % m.mSize) := rfl
    rw [hcg] at hsum
    omega

theorem insertRaw_findCore_self {m : HashMap K V} (h : WF hash m) (k : K) (v : V)
    (hc : containsKey m k = false) :
    findCore hash (insertRaw hash m (k, v)) k = some (m.mNextId, k, v) := by
  have hi' : hash k % m.mSize < m.mBuckets.length := by
    rw [h.1]; exact Nat.mod_lt _ h.2.1
  rw [findCore_eq, insertRaw_mSize]
  have hch := chainAt_insertRaw_self hash (m := m) (k, v) hi'
  rw [hch]
  have h1 : (setTailNext (chainAt m (hash k % m.mSize)) m.mNextId).find?
      (fun it => decide (it.key = k)) = none := by
    apply List.find?_eq_none.mpr
    intro y hy
    have hk := key_mem_of_mem_setTailNext hy
    rcases List.mem_map.mp hk with ⟨it2, hit2, hk2⟩
    have := containsKey_false_iff.mp hc _ it2 hit2
    simp only [decide_eq_true_eq]
    rw [← hk2]
    exact this
  rw [appendChain, find?_append_none h1, List.find?_cons_of_pos _ (by simp [Item.key])]
  rfl

theorem insertRaw_findCore_other {m : HashMap K V} (h : WF hash m) (k : K) (v : V)
    (k' : K) (hne : k' ≠ k) :
    findCore hash (insertRaw hash m (k, v)) k' = findCore hash m k' := by
  have hi' : hash k % m.mSize < m.mBuckets.length := by
    rw [h.1]; exact Nat.mod_lt _ h.2.1
  rw [findCore_eq, findCore_eq, insertRaw_mSize]
  by_cases hji : hash k % m.mSize = hash k' % m.mSize
  · rw [← hji, chainAt_insertRaw_self hash (m := m) (k, v) hi']
    have hch : (appendChain (chainAt m (hash k % m.mSize)) ⟨m.mNextId, (k, v), none⟩).map core
        = ((chainAt m (hash k % m.mSize))
            ++ [(⟨m.mNextId, (k, v), none⟩ : Item K V)]).map core := by
      rw [appendChain_map_core]
      simp
    have hcongr := find?_key_congr_core (k := k') hch
    rcases hf : (chainAt m (hash k % m.mSize)).find? (fun it => decide (it.key = k')) with _ | a
    · rw [find?_append_none hf,
        List.find?_cons_of_neg _ (by simpa using fun hh => hne hh.symm),
        List.find?_nil] at hcongr
      rw [hcongr, hf]
    · rw [find?_append_some hf] at hcongr
      rw [hcongr, hf]
  · rw [chainAt_insertRaw_other hash (k, v) _ hji]

theorem resize_mNumEntries (m : HashMap K V) (s : Nat) :
    (HashMap.resize hash m s).mNumEntries = m.mNumEntries := by
  rw [HashMap.resize]
  split <;> rfl

theorem resize_mNextId (m : HashMap K V) (s : Nat) :
    (HashMap.resize hash m s).mNextId = m.mNextId := by
  rw [HashMap.resize]
  split <;> rfl

theorem resize_mSize (m : HashMap K V) (s : Nat) :
    (HashMap.resize hash m s).mSize = s := by
  rw [HashMap.resize]
  split
  · next heq => rw [heq]
  · rfl

theorem insertResize_mNumEntries (m : HashMap K V) (kv : K × V) :
    (insertResize hash m kv).mNumEntries = m.mNumEntries + 1 := by
  rw [insertResize]
  split
  · rw [resize_mNumEntries, insertRaw_mNumEntries]
  · rw [insertRaw_mNumEntries]

theorem insertResize_mNextId (m : HashMap K V) (kv : K × V) :
    (insertResize hash m kv).mNextId = m.mNextId + 1 := by
  rw [insertResize]
  split
  · rw [resize_mNextId, insertRaw_mNextId]
  · rw [insertRaw_mNextId]

theorem insertResize_mSize (m : HashMap K V) (kv : K × V) :
    (insertResize hash m kv).mSize
      = if 5 * (m.mNumEntries + 1) > 2 * m.mSize
        then (m.mNumEntries + 1) * 3 + 5 else m.mSize := by
  rw [insertResize]
  rw [insertRaw_mNumEntries, insertRaw_mSize]
  split
  · rw [resize_mSize]
  · rw [insertRaw_mSize]

theorem insertResize_WF {m : HashMap K V} (h : WF hash m) (kv : K × V)
    (hc : containsKey m kv.1 = false) : WF hash (insertResize hash m kv) := by
  rw [insertResize]
  split
  · exact resize_WF hash (insertRaw_WF hash h kv hc) _
      (by rw [insertRaw_mNumEntries]; omega)
  · exact insertRaw_WF hash h kv hc

theorem insertResize_findCore_self {m : HashMap K V} (h : WF hash m) (k : K) (v : V)
    (hc : containsKey m k = false) :
    findCore hash (insertResize hash m (k, v)) k = some (m.mNextId, k, v) := by
  rw [insertResize]
  split
  · rw [resize_findCore hash (insertRaw_WF hash h (k, v) hc) _
      (by rw [insertRaw_mNumEntries]; omega)]
    exact insertRaw_findCore_self hash h k v hc
  · exact insertRaw_findCore_self hash h k v hc

theorem insertResize_findCore_other {m : HashMap K V} (h : WF hash m) (k : K) (v : V)
    (k' : K) (hne : k' ≠ k) (hc : containsKey m k = false) :
    findCore hash (insertResize hash m (k, v)) k' = findCore hash m k' := by
  rw [insertResize]
  split
  · rw [resize_findCore hash (insertRaw_WF hash h (k, v) hc) _
      (by rw [insertRaw_mNumEntries]; omega)]
    exact insertRaw_findCore_other hash h k v k' hne
  · exact insertRaw_findCore_other hash h k v k' hne

theorem updateTable_mSize (m : HashMap K V) (kv : K × V) :
    (updateTable hash m kv).mSize = m.mSize := rfl

theorem updateTable_mNumEntries (m : HashMap K V) (kv : K × V) :
    (updateTable hash m kv).mNumEntries = m.mNumEntries := rfl

theorem updateTable_mNextId (m : HashMap K V) (kv : K × V) :
    (updateTable hash m kv).mNextId = m.mNextId := rfl

theorem chainAt_updateTable_self {m : HashMap K V} (kv : K × V)
    (hi : hash kv.1 % m.mSize < m.mBuckets.length) :
    chainAt (updateTable hash m kv) (hash kv.1 % m.mSize)
      = updateFirst (chainAt m (hash kv.1 % m.mSize)) kv.1 kv.2 := by
  simp only [chainAt, updateTable]
  exact getD_set_self _ _ _ _ hi

theorem chainAt_updateTable_other {m : HashMap K V} (kv : K × V) (j : Nat)
    (hne : hash kv.1 % m.mSize ≠ j) :
    chainAt (updateTable hash m kv) j = chainAt m j := by
  simp only [chainAt, updateTable]
  exact getD_set_ne _ _ _ _ _ hne

theorem updateTable_WF {m : HashMap K V} (h : WF hash m) (kv : K × V) :
    WF hash (updateTable hash m kv) := by
  obtain ⟨hlen, hpos, hbucket, hnodup, hcount⟩ := h
  have hi : hash kv.1 % m.mSize < m.mSize := Nat.mod_lt _ hpos
  have hi' : hash kv.1 % m.mSize < m.mBuckets.length := by rw [hlen]; exact hi
  refine ⟨by simp [updateTable, hlen], hpos, ?_, ?_, ?_⟩
  · intro j hj it hit
    by_cases hji : hash kv.1 % m.mSize = j
    · rw [← hji, chainAt_updateTable_self hash kv hi'] at hit
      have hk := List.mem_map_of_mem Item.key hit
      rw [updateFirst_map_key] at hk
      rcases List.mem_map.mp hk with ⟨it2, hit2, hk2⟩
      have := hbucket _ hi' it2 hit2
      rw [← hji]
      rw [← hk2]
      exact this
    · rw [chainAt_updateTable_other hash kv j hji] at hit
      have hj' : j < m.mBuckets.length := by
        simpa [updateTable] using hj
      exact hbucket j hj' it hit
  · intro j hj
    by_cases hji : hash kv.1 % m.mSize = j
    · rw [← hji, chainAt_updateTable_self hash kv hi', updateFirst_map_key]
      exact hnodup _ hi'
    · rw [chainAt_updateTable_other hash kv j hji]
      have hj' : j < m.mBuckets.length := by
        simpa [updateTable] using hj
      exact hnodup j hj'
  · rw [updateTable_mNumEntries]
    have hsum := sum_map_length_set m.mBuckets (hash kv.1 % m.mSize)
      (updateFirst (chainAt m (hash kv.1 % m.mSize)) kv.1 kv.2) hi'
    rw [updateFirst_length] at hsum
    have hb : (updateTable hash m kv).mBuckets
        = m.mBuckets.set (hash kv.1 % m.mSize)
            (updateFirst (chainAt m (hash kv.1 % m.mSize)) kv.1 kv.2) := rfl
    rw [hb]
    have hcg : m.mBuckets.getD (hash kv.1 % m.mSize) []
        = chainAt m (hash kv.1 % m.mSize) := rfl
    rw [hcg] at hsum
    omega

theorem updateTable_findCore_self {m : HashMap K V} (h : WF hash m) (k : K) (v : V)
    {curr : Item K V}
    (hsome : (chainAt m (hash k % m.mSize)).find? (fun it => decide (it.key = k))
      = some curr) :
    findCore hash (updateTable hash m (k, v)) k = some (curr.id, k, v) := by
  have hi' : hash k % m.mSize < m.mBuckets.length := by
    rw [h.1]; exact Nat.mod_lt _ h.2.1
  have hkey : curr.key = k := by simpa using List.find?_some hsome
  rw [findCore_eq, updateTable_mSize, chainAt_updateTable_self hash (m := m) (k, v) hi',
    updateFirst_find?_self, hsome]
  have hkey2 : curr.mKeyValuePair.1 = k := hkey
  simp [core, hkey2]

theorem updateTable_findCore_other {m : HashMap K V} (h : WF hash m) (k : K) (v : V)
    (k' : K) (hne : k' ≠ k) :
    findCore hash (updateTable hash m (k, v)) k' = findCore hash m k' := by
  have hi' : hash k % m.mSize < m.mBuckets.length := by
    rw [h.1]; exact Nat.mod_lt _ h.2.1
  rw [findCore_eq, findCore_eq, updateTable_mSize]
  by_cases hji : hash k % m.mSize = hash k' % m.mSize
  · rw [← hji, chainAt_updateTable_self hash (m := m) (k, v) hi',
      updateFirst_find?_other _ _ _ _ hne]
  · rw [chainAt_updateTable_other hash (k, v) _ hji]

/-! The two `insert` branch equations and their consequences. -/

theorem insert_eq_none_branch {m : HashMap K V} {k : K} (v : V)
    (hnone : (chainAt m (hash k % m.mSize)).find? (fun it => decide (it.key = k)) = none) :
    HashMap.insert hash m (k, v) =
      ⟨insertResize hash m (k, v),
        ⟨some ⟨m.mNextId, (k, v), none⟩, hash k % m.mSize,
          some (insertResize hash m (k, v))⟩,
        false⟩ := by
  simp [HashMap.insert, hnone]

theorem insert_eq_some_branch {m : HashMap K V} {k : K} (v : V) {curr : Item K V}
    (hsome : (chainAt m (hash k % m.mSize)).find? (fun it => decide (it.key = k))
      = some curr) :
    HashMap.insert hash m (k, v) =
      ⟨updateTable hash m (k, v),
        ⟨some {curr with mKeyValuePair := (curr.mKeyValuePair.1, v)}, hash k % m.mSize,
          some (updateTable hash m (k, v))⟩,
        true⟩ := by
  simp [HashMap.insert, hsome]

theorem insert_WF {m : HashMap K V} (h : WF hash m) (k : K) (v : V) :
    WF hash (HashMap.insert hash m (k, v)).table := by
  cases hc : containsKey m k with
  | false =>
    rw [insert_eq_none_branch hash v (chain_find?_none_of_not_contains hash hc)]
    exact insertResize_WF hash h (k, v) hc
  | true =>
    obtain ⟨curr, hsome, hkey⟩ := chain_find?_of_contains hash h hc
    rw [insert_eq_some_branch hash v hsome]
    exact updateTable_WF hash h (k, v)

theorem insert_findCore_self {m : HashMap K V} (h : WF hash m) (k : K) (v : V) :
    ∃ n, findCore hash (HashMap.insert hash m (k, v)).table k = some (n, k, v) := by
  cases hc : containsKey m k with
  | false =>
    rw [insert_eq_none_branch hash v (chain_find?_none_of_not_contains hash hc)]
    exact ⟨m.mNextId, insertResize_findCore_self hash h k v hc⟩
  | true =>
    obtain ⟨curr, hsome, hkey⟩ := chain_find?_of_contains hash h hc
    rw [insert_eq_some_branch hash v hsome]
    exact ⟨curr.id, updateTable_findCore_self hash h k v hsome⟩

theorem insert_findCore_other {m : HashMap K V} (h : WF hash m) (k : K) (v : V)
    (k' : K) (hne : k' ≠ k) :
    findCore hash (HashMap.insert hash m (k, v)).table k' = findCore hash m k' := by
  cases hc : containsKey m k with
  | false =>
    rw [insert_eq_none_branch hash v (chain_find?_none_of_not_contains hash hc)]
    exact insertResize_findCore_other hash h k v k' hne hc
  | true =>
    obtain ⟨curr, hsome, hkey⟩ := chain_find?_of_contains hash h hc
    rw [insert_eq_some_branch hash v hsome]
    exact updateTable_findCore_other hash h k v k' hne

/-! Folding a sequence of inserts. -/

theorem insertAll_cons (m : HashMap K V) (kv : K × V) (ps : List (K × V)) :
    insertAll hash m (kv :: ps) = insertAll hash (HashMap.insert hash m kv).table ps := rfl

theorem find_mkHashMap (cap : Nat) (k : K) :
    HashMap.find hash (mkHashMap (K := K) (V := V) cap) k = Iterator.endIter := by
  simp [HashMap.find, chainAt_mkHashMap]

theorem derefOpt_eq_none {a : Iterator K V} : derefOpt a = none ↔ a.item = none := by
  rw [derefOpt]
  exact Option.map_eq_none

theorem insertAll_deref_spec :
    ∀ (ps : List (K × V)) (m : HashMap K V), WF hash m → (ps.map Prod.fst).Nodup →
      WF hash (insertAll hash m ps) ∧
      ∀ k, derefOpt (HashMap.find hash (insertAll hash m ps) k)
        = match ps.find? (fun kv => decide (kv.1 = k)) with
          | some kv => some (kv.1, kv.2)
          | none => derefOpt (HashMap.find hash m k) := by
  intro ps
  induction ps with
  | nil =>
    intro m hm hnd
    exact ⟨hm, fun k => by simp [insertAll]⟩
  | cons kv rest ih =>
    obtain ⟨k, v⟩ := kv
    intro m hm hnd
    rw [List.map_cons, List.nodup_cons] at hnd
    obtain ⟨hnotin, hnd'⟩ := hnd
    obtain ⟨ihWF, ihfind⟩ := ih (HashMap.insert hash m (k, v)).table
      (insert_WF hash hm k v) hnd'
    rw [insertAll_cons]
    refine ⟨ihWF, ?_⟩
    intro k'
    rw [ihfind k']
    rcases hf : rest.find? (fun kv' => decide (kv'.1 = k')) with _ | kv'
    · by_cases hkk : k = k'
      · rw [hf, List.find?_cons_of_pos _ (by simpa using hkk)]
        subst hkk
        obtain ⟨n, hself⟩ := insert_findCore_self hash hm k v
        rw [derefOpt_find, hself]
        rfl
      · rw [hf, List.find?_cons_of_neg _ (by simpa using hkk), hf,
          derefOpt_find, derefOpt_find,
          insert_findCore_other hash hm k v k' (fun hh => hkk hh.symm)]
    · have hkk : ¬ k = k' := by
        intro hkeq
        apply hnotin
        have hm1 := List.mem_of_find?_eq_some hf
        have hk1 : kv'.1 = k' := by simpa using List.find?_some hf
        have hfst : (k, v).1 = kv'.1 := by simp [hkeq, hk1]
        rw [hfst]
        exact List.mem_map_of_mem Prod.fst hm1
      rw [hf, List.find?_cons_of_neg _ (by simpa using hkk), hf]

/-- C1: for every sequence of inserts with pairwise distinct keys into a
freshly constructed table of positive capacity, `find` on each inserted
key returns a cursor dereferencing to the inserted pair, and `find` on a
key never inserted returns the end sentinel. -/
theorem c1_insert_find_round_trip (cap : Nat) (ps : List (K × V))
    (hcap : 0 < cap) (hnd : (ps.map Prod.fst).Nodup) :
    (∀ kv ∈ ps,
      derefOpt (HashMap.find hash (insertAll hash (mkHashMap cap) ps) kv.1) = some kv) ∧
    (∀ k, k ∉ ps.map Prod.fst →
      HashMap.find hash (insertAll hash (mkHashMap cap) ps) k = Iterator.endIter) := by
  obtain ⟨hWF, hfind⟩ := insertAll_deref_spec hash ps (mkHashMap cap)
    (WF_mkHashMap hash cap hcap) hnd
  constructor
  · intro kv hkv
    have hres := hfind kv.1
    rw [find?_proj_unique Prod.fst hnd hkv] at hres
    simpa using hres
  · intro k hk
    have hnone : ps.find? (fun kv' => decide (kv'.1 = k)) = none := by
      apply List.find?_eq_none.mpr
      intro x hx
      simp only [decide_eq_true_eq]
      intro h1
      exact hk (h1 ▸ List.mem_map_of_mem Prod.fst hx)
    have hres := hfind k
    rw [hnone, find_mkHashMap] at hres
    apply find_eq_endIter_of_item_none
    apply derefOpt_eq_none.mp
    rw [hres]
    rfl

/-! Exact-arithmetic bridge for the 0.4 load-factor threshold. -/

theorem nat_ratio_le {a b : Nat} (hb : 0 < b) (h : 5 * a ≤ 2 * b) :
    (a : ℚ) / (b : ℚ) ≤ 0.4 := by
  have hb' : (0 : ℚ) < b := by exact_mod_cast hb
  rw [div_le_iff₀ hb']
  have h04 : (0.4 : ℚ) = 2 / 5 := by norm_num
  rw [h04]
  have h' : (5 * a : ℚ) ≤ 2 * b := by exact_mod_cast h
  linarith

theorem nat_ratio_gt {a b : Nat} (hb : 0 < b) (h : (a : ℚ) / (b : ℚ) > 0.4) :
    5 * a > 2 * b := by
  have hb' : (0 : ℚ) < b := by exact_mod_cast hb
  rw [gt_iff_lt, lt_div_iff₀ hb'] at h
  have h04 : (0.4 : ℚ) = 2 / 5 := by norm_num
  rw [h04] at h
  have h2 : (2 * b : ℚ) < 5 * a := by linarith
  exact_mod_cast h2

/-! Characterizations of the bucket scans used by `getFirstItem` and
`getNextItem`. -/

theorem firstNonEmpty_none :
    ∀ (bs : List (List (Item K V))) (base : Nat),
      firstNonEmpty bs base = none ↔ ∀ c ∈ bs, c = [] := by
  intro bs
  induction bs with
  | nil => intro base; simp [firstNonEmpty]
  | cons c rest ih =>
    intro base
    cases c with
    | nil => simp [firstNonEmpty, ih (base + 1)]
    | cons x xs => simp [firstNonEmpty]

theorem firstNonEmpty_some :
    ∀ (bs : List (List (Item K V))) (base : Nat) (it : Item K V) (idx : Nat),
      firstNonEmpty bs base = some (it, idx) →
        base ≤ idx ∧ idx - base < bs.length ∧
        (∀ d, d < idx - base → bs.getD d [] = []) ∧
        (bs.getD (idx - base) []).head? = some it := by
  intro bs
  induction bs with
  | nil => intro base it idx h; cases h
  | cons c rest ih =>
    intro base it idx h
    cases c with
    | nil =>
      simp only [firstNonEmpty] at h
      obtain ⟨h1, h2, h3, h4⟩ := ih (base + 1) it idx h
      refine ⟨by omega, by simp only [List.length_cons]; omega, ?_, ?_⟩
      · intro d hd
        cases d with
        | zero => rfl
        | succ d' =>
          rw [List.getD_cons_succ]
          exact h3 d' (by omega)
      · have hd : idx - base = (idx - (base + 1)) + 1 := by omega
        rw [hd, List.getD_cons_succ]
        exact h4
    | cons x xs =>
      simp only [firstNonEmpty, Option.some.injEq, Prod.mk.injEq] at h
      obtain ⟨hx, hb⟩ := h
      refine ⟨le_of_eq hb, ?_, ?_, ?_⟩
      · rw [← hb]
        simp
      · intro d hd
        rw [← hb] at hd
        omega
      · rw [← hb]
        simp [hx]

theorem getD_drop {α : Type _} (bs : List α) (s d : Nat) (x : α) :
    (bs.drop s).getD d x = bs.getD (s + d) x := by
  simp [List.getD_eq_getElem?_getD, List.getElem?_drop]

theorem chainSucc_eq_spec (c : List (Item K V)) (n : Nat) :
    chainSucc c n = specChainSuccessor c n := by
  induction c with
  | nil => rfl
  | cons a rest ih =>
    cases rest with
    | nil =>
      rw [chainSucc, specChainSuccessor, List.dropWhile_cons]
      by_cases h : a.id = n
      · simp [h]
      · simp [h]
    | cons b rest' =>
      have hspec : ¬ a.id = n →
          specChainSuccessor (a :: b :: rest') n = specChainSuccessor (b :: rest') n := by
        intro hne
        rw [specChainSuccessor, specChainSuccessor, List.dropWhile_cons,
          if_pos (by simpa using hne)]
      by_cases h : a.id = n
      · rw [chainSucc, if_pos h, specChainSuccessor, List.dropWhile_cons,
          if_neg (by simpa using h)]
      · rw [chainSucc, if_neg h, ih, hspec h]

theorem c1_witness :
    0 < 5 ∧ (([(1, 10), (2, 20)] : List (Nat × Nat)).map Prod.fst).Nodup ∧
    derefOpt (HashMap.find (fun n => n)
      (insertAll (fun n => n) (mkHashMap 5) [(1, 10), (2, 20)]) 1) = some (1, 10) ∧
    HashMap.find (fun n => n)
      (insertAll (fun n => n) (mkHashMap 5) [(1, 10), (2, 20)]) 3 = Iterator.endIter := by
  refine ⟨by decide, by decide, ?_, ?_⟩
  · exact (c1_insert_find_round_trip (fun n => n) 5 [(1, 10), (2, 20)]
      (by decide) (by decide)).1 (1, 10) (by decide)
  · exact (c1_insert_find_round_trip (fun n => n) 5 [(1, 10), (2, 20)]
      (by decide) (by decide)).2 3 (by decide)

/-- C2: after any insert of a new key the load factor
`mNumEntries / mSize` is at most 0.4; whenever the post-increment load
factor strictly exceeds 0.4, the table is resized to
`mNumEntries * 3 + 5` slots before `insert` returns; and in a capacity-23
table holding 9 distinct keys, the 10th distinct key triggers the resize
to 35 slots. -/
theorem c2_load_factor_bound :
    (∀ (m : HashMap K V) (k : K) (v : V), WF hash m → containsKey m k = false →
      ((HashMap.insert hash m (k, v)).table.mNumEntries : ℚ)
          / ((HashMap.insert hash m (k, v)).table.mSize : ℚ) ≤ 0.4 ∧
      ((((m.mNumEntries + 1 : Nat)) : ℚ) / (m.mSize : ℚ) > 0.4 →
        (HashMap.insert hash m (k, v)).table.mSize = (m.mNumEntries + 1) * 3 + 5)) ∧
    (c2table9.mSize = 23 ∧ c2table9.mNumEntries = 9 ∧
      (HashMap.insert (fun n => n) c2table9 (9, 9)).table.mSize = 35) := by
  constructor
  · intro m k v hm hc
    rw [insert_eq_none_branch hash v (chain_find?_none_of_not_contains hash hc)]
    constructor
    · rw [insertResize_mNumEntries, insertResize_mSize]
      by_cases hcond : 5 * (m.mNumEntries + 1) > 2 * m.mSize
      · rw [if_pos hcond]
        exact nat_ratio_le (by omega) (by omega)
      · rw [if_neg hcond]
        exact nat_ratio_le hm.2.1 (by omega)
    · intro hgt
      have hcond := nat_ratio_gt hm.2.1 hgt
      rw [insertResize_mSize, if_pos hcond]
  · refine ⟨by decide, by decide, by decide⟩

theorem c2_witness :
    WF (fun n => n) (mkHashMap (K := Nat) (V := Nat) 1) ∧
    containsKey (mkHashMap (K := Nat) (V := Nat) 1) 1 = false ∧
    ((((mkHashMap (K := Nat) (V := Nat) 1).mNumEntries + 1 : Nat)) : ℚ)
        / ((mkHashMap (K := Nat) (V := Nat) 1).mSize : ℚ) > 0.4 ∧
    ((HashMap.insert (fun n => n) (mkHashMap 1) (1, 10)).table.mNumEntries : ℚ)
        / ((HashMap.insert (fun n => n) (mkHashMap 1) (1, 10)).table.mSize : ℚ) ≤ 0.4 ∧
    (HashMap.insert (fun n => n) (mkHashMap 1) (1, 10)).table.mSize
      = ((mkHashMap (K := Nat) (V := Nat) 1).mNumEntries + 1) * 3 + 5 := by
  have h1 : WF (fun n => n) (mkHashMap (K := Nat) (V := Nat) 1) := by decide
  have h2 : containsKey (mkHashMap (K := Nat) (V := Nat) 1) 1 = false := by decide
  have h3 : ((((mkHashMap (K := Nat) (V := Nat) 1).mNumEntries + 1 : Nat)) : ℚ)
      / ((mkHashMap (K := Nat) (V := Nat) 1).mSize : ℚ) > 0.4 := by
    norm_num [mkHashMap]
  refine ⟨h1, h2, h3, ?_, ?_⟩
  · exact ((c2_load_factor_bound (fun n => n)).1 (mkHashMap 1) 1 10 h1 h2).1
  · exact ((c2_load_factor_bound (fun n => n)).1 (mkHashMap 1) 1 10 h1 h2).2 h3

/-- C3: `resize(newSize)` is a no-op when `newSize` equals the current
capacity; otherwise every previously stored key is still found by `find`
with its previously stored value (and node address), `size()` is
unchanged, every collected entry's successor link is cleared before
reinsertion, and each rebuilt bucket holds, in collection order, exactly
the entries whose keys rehash to it under the new capacity (appended at
the chain tail) — without touching `mNumEntries` or the allocation
counter, i.e. without the public `insert` path. -/
theorem c3_resize_correct (m : HashMap K V) (newSize : Nat) (h : WF hash m) :
    (newSize = m.mSize → HashMap.resize hash m newSize = m) ∧
    (newSize ≠ m.mSize → 0 < newSize →
      (∀ k, findCore hash (HashMap.resize hash m newSize) k = findCore hash m k) ∧
      HashMap.size (HashMap.resize hash m newSize) = HashMap.size m ∧
      (∀ it ∈ clearLinks (collectEntries m), it.mNext = none) ∧
      (∀ j, (chainAt (HashMap.resize hash m newSize) j).map core
        = ((clearLinks (collectEntries m)).filter
            (fun it => decide (hash it.key % newSize = j))).map core) ∧
      (HashMap.resize hash m newSize).mNumEntries = m.mNumEntries ∧
      (HashMap.resize hash m newSize).mNextId = m.mNextId) := by
  constructor
  · intro heq
    rw [HashMap.resize, if_pos heq]
  · intro hne hpos
    obtain ⟨S1, S2, S3, S4, S5, S6⟩ := resize_spec hash newSize hpos hne (m := m)
    refine ⟨fun k => resize_findCore hash h newSize hpos k, ?_, ?_, S6, S2, S3⟩
    · rw [HashMap.size, HashMap.size, S2]
    · intro it hit
      rcases List.mem_map.mp hit with ⟨a, ha, rfl⟩
      rfl

theorem c3_witness :
    WF (fun n => n) c3table ∧ (5 : Nat) ≠ c3table.mSize ∧ 0 < 5 ∧
    HashMap.resize (fun n => n) c3table 3 = c3table ∧
    findCore (fun n => n) (HashMap.resize (fun n => n) c3table 5) 1
      = findCore (fun n => n) c3table 1 ∧
    HashMap.size (HashMap.resize (fun n => n) c3table 5) = HashMap.size c3table := by
  have h1 : WF (fun n => n) c3table := by decide
  refine ⟨h1, by decide, by decide, ?_, ?_, ?_⟩
  · exact (c3_resize_correct (fun n => n) c3table 3 h1).1 (by decide)
  · exact ((c3_resize_correct (fun n => n) c3table 5 h1).2 (by decide) (by decide)).1 1
  · exact ((c3_resize_correct (fun n => n) c3table 5 h1).2 (by decide) (by decide)).2.1

/-- C4: inserting an already-present key overwrites the stored value in
place (same node address, same bucket), returns a cursor to that existing
entry together with the flag `true`, and leaves `size()` and the set of
stored keys unchanged. -/
theorem c4_update_in_place (m : HashMap K V) (k : K) (v' : V) (h : WF hash m)
    (hc : containsKey m k = true) :
    ∃ it0, (HashMap.find hash m k).item = some it0 ∧
      (HashMap.insert hash m (k, v')).existed = true ∧
      (HashMap.insert hash m (k, v')).iter.item.map Item.id = some it0.id ∧
      (HashMap.insert hash m (k, v')).iter.bucket = (HashMap.find hash m k).bucket ∧
      derefOpt (HashMap.insert hash m (k, v')).iter = some (k, v') ∧
      HashMap.size (HashMap.insert hash m (k, v')).table = HashMap.size m ∧
      (∀ k', containsKey (HashMap.insert hash m (k, v')).table k' = containsKey m k') ∧
      findCore hash (HashMap.insert hash m (k, v')).table k = some (it0.id, k, v') ∧
      (∀ k', k' ≠ k → findCore hash (HashMap.insert hash m (k, v')).table k'
        = findCore hash m k') := by
  obtain ⟨curr, hsome, hkey⟩ := chain_find?_of_contains hash h hc
  have hfind : HashMap.find hash m k = ⟨some curr, hash k % m.mSize, some m⟩ := by
    simp [HashMap.find, hsome]
  have hWFup : WF hash (updateTable hash m (k, v')) := updateTable_WF hash h (k, v')
  refine ⟨curr, by rw [hfind], ?_, ?_, ?_, ?_, ?_, ?_, ?_, ?_⟩
  · rw [insert_eq_some_branch hash v' hsome]
  · rw [insert_eq_some_branch hash v' hsome]
    simp
  · rw [insert_eq_some_branch hash v' hsome, hfind]
  · rw [insert_eq_some_branch hash v' hsome]
    have hkey2 : curr.mKeyValuePair.1 = k := hkey
    simp [derefOpt, hkey2]
  · rw [insert_eq_some_branch hash v' hsome]
    rfl
  · intro k'
    rw [insert_eq_some_branch hash v' hsome,
      containsKey_eq_isSome hash hWFup, containsKey_eq_isSome hash h]
    by_cases hkk : k' = k
    · subst hkk
      rw [updateTable_findCore_self hash h k' v' hsome, findCore_eq, hsome]
      rfl
    · rw [updateTable_findCore_other hash h k v' k' hkk]
  · rw [insert_eq_some_branch hash v' hsome]
    exact updateTable_findCore_self hash h k v' hsome
  · intro k' hkk
    rw [insert_eq_some_branch hash v' hsome]
    exact updateTable_findCore_other hash h k v' k' hkk

theorem c4_witness :
    WF (fun n => n) c3table ∧ containsKey c3table 1 = true ∧
    (∃ it0, (HashMap.find (fun n => n) c3table 1).item = some it0 ∧
      (HashMap.insert (fun n => n) c3table (1, 99)).existed = true ∧
      (HashMap.insert (fun n => n) c3table (1, 99)).iter.item.map Item.id = some it0.id ∧
      (HashMap.insert (fun n => n) c3table (1, 99)).iter.bucket
        = (HashMap.find (fun n => n) c3table 1).bucket ∧
      derefOpt (HashMap.insert (fun n => n) c3table (1, 99)).iter = some (1, 99) ∧
      HashMap.size (HashMap.insert (fun n => n) c3table (1, 99)).table
        = HashMap.size c3table ∧
      (∀ k', containsKey (HashMap.insert (fun n => n) c3table (1, 99)).table k'
        = containsKey c3table k') ∧
      findCore (fun n => n) (HashMap.insert (fun n => n) c3table (1, 99)).table 1
        = some (it0.id, 1, 99) ∧
      (∀ k', k' ≠ 1 → findCore (fun n => n) (HashMap.insert (fun n => n) c3table (1, 99)).table k'
        = findCore (fun n => n) c3table k')) := by
  refine ⟨by decide, by decide, ?_⟩
  exact c4_update_in_place (fun n => n) c3table 1 99 (by decide) (by decide)

/-! The atom registry. -/

theorem findValue_eq (m : HashMap K V) (k : K) :
    (HashMap.find hash m k).item.map Item.value
      = (findCore hash m k).map (fun t => t.2.2) := by
  rw [findCore]
  cases (HashMap.find hash m k).item with
  | none => rfl
  | some it => rfl

theorem findAtom_eq (shash : String → Nat) (r : AtomRegistry) (aID : String) :
    AtomRegistry.findAtom shash r aID
      = (HashMap.find shash r.mAtoms aID).item.map Item.value := by
  rw [AtomRegistry.findAtom]
  rcases hf : (chainAt r.mAtoms (shash aID % r.mAtoms.mSize)).find?
      (fun it => decide (it.key = aID)) with _ | a
  · have hend : HashMap.find shash r.mAtoms aID = Iterator.endIter := by
      simp [HashMap.find, hf]
    rw [hend]
    simp [ConstIterator.ofIterator, ConstIterator.beq, Iterator.endIter]
  · have hsome : HashMap.find shash r.mAtoms aID
        = ⟨some a, shash aID % r.mAtoms.mSize, some r.mAtoms⟩ := by
      simp [HashMap.find, hf]
    rw [hsome]
    simp [ConstIterator.ofIterator, ConstIterator.beq, Iterator.endIter]

theorem containsKey_false_of_findAtom_none {shash : String → Nat} {r : AtomRegistry}
    {aID : String} (h : WF shash r.mAtoms)
    (hfresh : AtomRegistry.findAtom shash r aID = none) :
    containsKey r.mAtoms aID = false := by
  rw [findAtom_eq, findValue_eq] at hfresh
  rw [containsKey_eq_isSome shash h]
  rcases hfc : findCore shash r.mAtoms aID with _ | t
  · rfl
  · rw [hfc] at hfresh
    cases hfresh

/-- C5: registering an atom under a fresh identifier stores it under that
identifier and returns `true`; registering a second atom whose identifier
is already registered returns `false`, destroys the passed-in duplicate,
emits the diagnostic, and leaves the registry untouched — `findAtom`
still returns the first registered atom and the count of registered
identifiers is unchanged. -/
theorem c5_registry_dedup (shash : String → Nat) (r : AtomRegistry) (a1 a2 : Atom)
    (h : WF shash r.mAtoms) (hfresh : AtomRegistry.findAtom shash r a1.getID = none)
    (hsame : a2.getID = a1.getID) :
    (AtomRegistry.registerAtom shash r a1).returned = true ∧
    AtomRegistry.findAtom shash (AtomRegistry.registerAtom shash r a1).registry a1.getID
      = some a1 ∧
    (AtomRegistry.registerAtom shash r a1).registry.mAtoms.mNumEntries
      = r.mAtoms.mNumEntries + 1 ∧
    AtomRegistry.registerAtom shash (AtomRegistry.registerAtom shash r a1).registry a2
      = ⟨(AtomRegistry.registerAtom shash r a1).registry, false, true, true⟩ ∧
    AtomRegistry.findAtom shash
      (AtomRegistry.registerAtom shash
        (AtomRegistry.registerAtom shash r a1).registry a2).registry a1.getID
      = some a1 ∧
    (AtomRegistry.registerAtom shash
        (AtomRegistry.registerAtom shash r a1).registry a2).registry.mAtoms.mNumEntries
      = (AtomRegistry.registerAtom shash r a1).registry.mAtoms.mNumEntries := by
  have hcfalse := containsKey_false_of_findAtom_none h hfresh
  have hreg1 : AtomRegistry.registerAtom shash r a1
      = ⟨⟨(HashMap.insert shash r.mAtoms (a1.getID, a1)).table,
          r.mIsCurrentlyDeallocating⟩, true, false, false⟩ := by
    rw [AtomRegistry.registerAtom, hfresh]
  obtain ⟨n, hfc⟩ := insert_findCore_self shash h a1.getID a1
  have hfind1 : AtomRegistry.findAtom shash
      ⟨(HashMap.insert shash r.mAtoms (a1.getID, a1)).table,
        r.mIsCurrentlyDeallocating⟩ a1.getID = some a1 := by
    rw [findAtom_eq, findValue_eq]
    show ((findCore shash (HashMap.insert shash r.mAtoms (a1.getID, a1)).table
      a1.getID).map (fun t => t.2.2)) = some a1
    rw [hfc]
    rfl
  have hcnt1 : (HashMap.insert shash r.mAtoms (a1.getID, a1)).table.mNumEntries
      = r.mAtoms.mNumEntries + 1 := by
    rw [insert_eq_none_branch shash a1 (chain_find?_none_of_not_contains shash hcfalse)]
    exact insertResize_mNumEntries shash r.mAtoms (a1.getID, a1)
  have hreg2 : AtomRegistry.registerAtom shash
      ⟨(HashMap.insert shash r.mAtoms (a1.getID, a1)).table,
        r.mIsCurrentlyDeallocating⟩ a2
      = ⟨⟨(HashMap.insert shash r.mAtoms (a1.getID, a1)).table,
          r.mIsCurrentlyDeallocating⟩, false, true, true⟩ := by
    rw [AtomRegistry.registerAtom]
    have : AtomRegistry.findAtom shash
        ⟨(HashMap.insert shash r.mAtoms (a1.getID, a1)).table,
          r.mIsCurrentlyDeallocating⟩ a2.getID = some a1 := by
      rw [hsame]
      exact hfind1
    rw [this]
  rw [hreg1]
  exact ⟨rfl, hfind1, hcnt1, hreg2, by rw [hreg2]; exact hfind1, by rw [hreg2]⟩

theorem c5_witness :
    WF (fun s => s.length) mkAtomRegistry.mAtoms ∧
    AtomRegistry.findAtom (fun s => s.length) mkAtomRegistry
      (Atom.getID ⟨0, "CO2"⟩) = none ∧
    Atom.getID ⟨1, "CO2"⟩ = Atom.getID ⟨0, "CO2"⟩ ∧
    ((AtomRegistry.registerAtom (fun s => s.length) mkAtomRegistry ⟨0, "CO2"⟩).returned
        = true ∧
     AtomRegistry.findAtom (fun s => s.length)
        (AtomRegistry.registerAtom (fun s => s.length) mkAtomRegistry ⟨0, "CO2"⟩).registry
        (Atom.getID ⟨0, "CO2"⟩) = some ⟨0, "CO2"⟩ ∧
     (AtomRegistry.registerAtom (fun s => s.length)
        mkAtomRegistry ⟨0, "CO2"⟩).registry.mAtoms.mNumEntries
        = mkAtomRegistry.mAtoms.mNumEntries + 1 ∧
     AtomRegistry.registerAtom (fun s => s.length)
        (AtomRegistry.registerAtom (fun s => s.length) mkAtomRegistry ⟨0, "CO2"⟩).registry
        ⟨1, "CO2"⟩
        = ⟨(AtomRegistry.registerAtom (fun s => s.length)
            mkAtomRegistry ⟨0, "CO2"⟩).registry, false, true, true⟩ ∧
     AtomRegistry.findAtom (fun s => s.length)
        (AtomRegistry.registerAtom (fun s => s.length)
          (AtomRegistry.registerAtom (fun s => s.length) mkAtomRegistry ⟨0, "CO2"⟩).registry
          ⟨1, "CO2"⟩).registry (Atom.getID ⟨0, "CO2"⟩) = some ⟨0, "CO2"⟩ ∧
     (AtomRegistry.registerAtom (fun s => s.length)
          (AtomRegistry.registerAtom (fun s => s.length) mkAtomRegistry ⟨0, "CO2"⟩).registry
          ⟨1, "CO2"⟩).registry.mAtoms.mNumEntries
        = (AtomRegistry.registerAtom (fun s => s.length)
            mkAtomRegistry ⟨0, "CO2"⟩).registry.mAtoms.mNumEntries) := by
  refine ⟨by decide, by decide, by decide, ?_⟩
  exact c5_registry_dedup (fun s => s.length) mkAtomRegistry ⟨0, "CO2"⟩ ⟨1, "CO2"⟩
    (by decide) (by decide) (by decide)

/-! The read-only iterator's increment. -/

theorem inc_eq {m : HashMap K V} {a : ConstIterator K V} {x : Item K V}
    (hp : a.parent = some m) (hx : a.item = some x) :
    ConstIterator.inc a = ⟨(HashMap.getNextItem m (x, a.bucket)).1,
      (HashMap.getNextItem m (x, a.bucket)).2, some m⟩ := by
  rcases a with ⟨ai, ab, ap⟩
  simp only at hp hx
  subst hp
  subst hx
  rfl

theorem getNextItem_chain {m : HashMap K V} {x : Item K V} {pos : Nat} {y : Item K V}
    (hcs : chainSucc (chainAt m pos) x.id = some y) :
    HashMap.getNextItem m (x, pos) = (some y, pos) := by
  simp [HashMap.getNextItem, hcs]

theorem getNextItem_scan_some {m : HashMap K V} {x : Item K V} {pos : Nat}
    {it : Item K V} {j : Nat}
    (hcs : chainSucc (chainAt m pos) x.id = none)
    (hfe : firstNonEmpty (m.mBuckets.drop (pos + 1)) (pos + 1) = some (it, j)) :
    HashMap.getNextItem m (x, pos) = (some it, j) := by
  simp [HashMap.getNextItem, hcs, hfe]

theorem getNextItem_scan_none {m : HashMap K V} {x : Item K V} {pos : Nat}
    (hcs : chainSucc (chainAt m pos) x.id = none)
    (hfe : firstNonEmpty (m.mBuckets.drop (pos + 1)) (pos + 1) = none) :
    HashMap.getNextItem m (x, pos) = (none, 0) := by
  simp [HashMap.getNextItem, hcs, hfe]

/-- C6 (on the variant that compiles): the read-only iterator's increment
follows exactly the traversal the spec describes for both variants — move
to the current entry's chain successor keeping the bucket index if one
exists, otherwise to the head of the first non-empty bucket at a strictly
larger index, otherwise become the end sentinel (the parent pointer is
retained).  The mutable variant's `operator++` (hash_map.h:739) instead
calls `mParent->findNext`, a member `HashMap` never declares, so it does
not compile when instantiated. -/
theorem c6_const_iterator_traversal (m : HashMap K V) (a : ConstIterator K V)
    (x : Item K V) (hp : a.parent = some m) (hx : a.item = some x) :
    (∃ y, specChainSuccessor (chainAt m a.bucket) x.id = some y ∧
      ConstIterator.inc a = ⟨some y, a.bucket, some m⟩) ∨
    (specChainSuccessor (chainAt m a.bucket) x.id = none ∧
      ((∃ it j, a.bucket < j ∧ (∀ i, a.bucket < i → i < j → chainAt m i = []) ∧
        (chainAt m j).head? = some it ∧ ConstIterator.inc a = ⟨some it, j, some m⟩) ∨
       ((∀ i, a.bucket < i → chainAt m i = []) ∧
        ConstIterator.inc a = ⟨none, 0, some m⟩))) := by
  have hinc := inc_eq hp hx
  rcases hcs : chainSucc (chainAt m a.bucket) x.id with _ | y
  · right
    refine ⟨by rw [← chainSucc_eq_spec, hcs], ?_⟩
    rcases hfe : firstNonEmpty (m.mBuckets.drop (a.bucket + 1)) (a.bucket + 1) with _ | p
    · right
      constructor
      · intro i hi
        have hall := (firstNonEmpty_none _ _).mp hfe
        rw [chainAt]
        by_cases hlen : i < m.mBuckets.length
        · have hdl : i - (a.bucket + 1) < (m.mBuckets.drop (a.bucket + 1)).length := by
            rw [List.length_drop]
            omega
          have hg : m.mBuckets.getD i []
              = (m.mBuckets.drop (a.bucket + 1)).getD (i - (a.bucket + 1)) [] := by
            rw [getD_drop]
            congr 1
            omega
          rw [hg]
          exact hall _ (getD_mem _ _ _ hdl)
        · exact getD_ge _ _ _ (le_of_not_lt hlen)
      · rw [hinc, getNextItem_scan_none hcs hfe]
    · obtain ⟨it, j⟩ := p
      left
      obtain ⟨h1, h2, h3, h4⟩ := firstNonEmpty_some _ _ _ _ hfe
      refine ⟨it, j, by omega, ?_, ?_, ?_⟩
      · intro i hi hij
        rw [chainAt]
        have hg : m.mBuckets.getD i []
            = (m.mBuckets.drop (a.bucket + 1)).getD (i - (a.bucket + 1)) [] := by
          rw [getD_drop]
          congr 1
          omega
        rw [hg]
        exact h3 _ (by omega)
      · rw [chainAt]
        have hg : m.mBuckets.getD j []
            = (m.mBuckets.drop (a.bucket + 1)).getD (j - (a.bucket + 1)) [] := by
          rw [getD_drop]
          congr 1
          omega
        rw [hg]
        exact h4
      · rw [hinc, getNextItem_scan_some hcs hfe]
  · left
    exact ⟨y, by rw [← chainSucc_eq_spec, hcs], by rw [hinc, getNextItem_chain hcs]⟩

theorem c6_witness :
    (⟨some ⟨0, (1, 10), none⟩, 1, some c3table⟩ : ConstIterator Nat Nat).parent
      = some c3table ∧
    (⟨some ⟨0, (1, 10), none⟩, 1, some c3table⟩ : ConstIterator Nat Nat).item
      = some ⟨0, (1, 10), none⟩ ∧
    ((∃ y, specChainSuccessor (chainAt c3table 1)
        (Item.id (⟨0, (1, 10), none⟩ : Item Nat Nat)) = some y ∧
      ConstIterator.inc ⟨some ⟨0, (1, 10), none⟩, 1, some c3table⟩
        = ⟨some y, 1, some c3table⟩) ∨
    (specChainSuccessor (chainAt c3table 1)
        (Item.id (⟨0, (1, 10), none⟩ : Item Nat Nat)) = none ∧
      ((∃ it j, 1 < j ∧ (∀ i, 1 < i → i < j → chainAt c3table i = []) ∧
        (chainAt c3table j).head? = some it ∧
        ConstIterator.inc ⟨some ⟨0, (1, 10), none⟩, 1, some c3table⟩
          = ⟨some it, j, some c3table⟩) ∨
       ((∀ i, 1 < i → chainAt c3table i = []) ∧
        ConstIterator.inc ⟨some ⟨0, (1, 10), none⟩, 1, some c3table⟩
          = ⟨none, 0, some c3table⟩)))) := by
  refine ⟨rfl, rfl, ?_⟩
  exact c6_const_iterator_traversal c3table
    ⟨some ⟨0, (1, 10), none⟩, 1, some c3table⟩ ⟨0, (1, 10), none⟩ rfl rfl

/-- C7: `empty()` is true and `begin() == end()` exactly when
`size() == 0`; on a non-empty table `begin()` is a cursor to the chain
head of the first non-empty bucket, scanning bucket indices from 0. -/
theorem c7_empty_begin (m : HashMap K V) (h : WF hash m) :
    (HashMap.empty m = true ↔ HashMap.size m = 0) ∧
    (Iterator.beq (HashMap.begin m) Iterator.endIter = true ↔ HashMap.size m = 0) ∧
    (HashMap.size m ≠ 0 → ∃ it j, HashMap.begin m = ⟨some it, j, some m⟩ ∧
      (∀ i, i < j → chainAt m i = []) ∧ (chainAt m j).head? = some it) := by
  have hcount := h.2.2.2.2
  have hfe_main : m.mNumEntries ≠ 0 →
      ∃ it j, HashMap.begin m = ⟨some it, j, some m⟩ ∧
        (∀ i, i < j → chainAt m i = []) ∧ (chainAt m j).head? = some it := by
    intro hz
    have hexists : firstNonEmpty m.mBuckets 0 ≠ none := by
      intro hnone
      have hall := (firstNonEmpty_none _ _).mp hnone
      apply hz
      rw [hcount]
      apply List.sum_eq_zero_iff.mpr
      intro n hn
      rcases List.mem_map.mp hn with ⟨c, hc, rfl⟩
      rw [hall c hc]
      rfl
    rcases hfe : firstNonEmpty m.mBuckets 0 with _ | p
    · exact absurd hfe hexists
    obtain ⟨it, j⟩ := p
    have hbeg : HashMap.begin m = ⟨some it, j, some m⟩ := by
      simp [HashMap.begin, HashMap.getFirstItem, hz, hfe]
    obtain ⟨h1, h2, h3, h4⟩ := firstNonEmpty_some _ _ _ _ hfe
    refine ⟨it, j, hbeg, ?_, ?_⟩
    · intro i hij
      rw [chainAt]
      exact h3 i (by omega)
    · rw [chainAt]
      have hj0 : j - 0 = j := by omega
      rw [hj0] at h4
      exact h4
  refine ⟨by simp [HashMap.empty, HashMap.size], ?_, hfe_main⟩
  by_cases hz : m.mNumEntries = 0
  · have hbeg : HashMap.begin m = ⟨none, 0, some m⟩ := by
      simp [HashMap.begin, HashMap.getFirstItem, hz]
    rw [hbeg]
    have : Iterator.beq (⟨none, 0, some m⟩ : Iterator K V) Iterator.endIter = true := by
      simp [Iterator.beq, Iterator.endIter]
    rw [this]
    simp [HashMap.size, hz]
  · obtain ⟨it, j, hbeg, _, _⟩ := hfe_main hz
    rw [hbeg]
    constructor
    · intro hbeq
      exfalso
      simp [Iterator.beq, Iterator.endIter] at hbeq
    · intro hsz
      exact absurd hsz hz

theorem c7_witness :
    WF (fun n => n) c3table ∧
    ((HashMap.empty c3table = true ↔ HashMap.size c3table = 0) ∧
     (Iterator.beq (HashMap.begin c3table) Iterator.endIter = true
        ↔ HashMap.size c3table = 0) ∧
     (HashMap.size c3table ≠ 0 →
       ∃ it j, HashMap.begin c3table = ⟨some it, j, some c3table⟩ ∧
         (∀ i, i < j → chainAt c3table i = []) ∧
         (chainAt c3table j).head? = some it)) := by
  refine ⟨by decide, ?_⟩
  exact c7_empty_begin (fun n => n) c3table (by decide)

/-- C8: two cursors compare equal exactly when they reference the same
entry (the same node address) and carry the same bucket index, for both
the mutable and the read-only variant; in particular any two end
sentinels compare equal regardless of their parent pointers. -/
theorem c8_cursor_equality :
    (∀ a b : Iterator K V, Iterator.beq a b = true ↔
      (a.item.map Item.id = b.item.map Item.id ∧ a.bucket = b.bucket)) ∧
    (∀ a b : ConstIterator K V, ConstIterator.beq a b = true ↔
      (a.item.map Item.id = b.item.map Item.id ∧ a.bucket = b.bucket)) ∧
    (∀ p q : Option (HashMap K V), Iterator.beq ⟨none, 0, p⟩ ⟨none, 0, q⟩ = true) ∧
    (∀ p q : Option (HashMap K V), ConstIterator.beq ⟨none, 0, p⟩ ⟨none, 0, q⟩ = true) := by
  refine ⟨?_, ?_, ?_, ?_⟩ <;> intro a b <;>
    simp [Iterator.beq, ConstIterator.beq]

/-- C9: when an insert of a new key triggers a resize, the returned
cursor keeps the bucket index computed under the pre-resize capacity and
references the newly allocated entry; concretely, inserting key 1 into a
capacity-1 table resizes to 8 slots, and the returned cursor (bucket 0)
differs from the cursor a subsequent `find` returns (bucket 1), although
both reference the same entry. -/
theorem c9_insert_resize_stale_cursor :
    (∀ (m : HashMap K V) (k : K) (v : V), WF hash m → containsKey m k = false →
      5 * (m.mNumEntries + 1) > 2 * m.mSize →
      (HashMap.insert hash m (k, v)).iter.bucket = hash k % m.mSize ∧
      (HashMap.insert hash m (k, v)).iter.item = some ⟨m.mNextId, (k, v), none⟩ ∧
      (HashMap.insert hash m (k, v)).table.mSize = (m.mNumEntries + 1) * 3 + 5) ∧
    (c9run.iter.item.map Item.id = some 0 ∧
     (HashMap.find (fun n => n) c9run.table 1).item.map Item.id = some 0 ∧
     c9run.iter.bucket = 0 ∧
     (HashMap.find (fun n => n) c9run.table 1).bucket = 1 ∧
     Iterator.beq c9run.iter (HashMap.find (fun n => n) c9run.table 1) = false) := by
  constructor
  · intro m k v hm hc htrig
    rw [insert_eq_none_branch hash v (chain_find?_none_of_not_contains hash hc)]
    refine ⟨rfl, rfl, ?_⟩
    rw [insertResize_mSize, if_pos htrig]
  · exact ⟨by decide, by decide, by decide, by decide, by decide⟩

theorem c9_witness :
    WF (fun n => n) (mkHashMap (K := Nat) (V := Nat) 1) ∧
    containsKey (mkHashMap (K := Nat) (V := Nat) 1) 1 = false ∧
    5 * ((mkHashMap (K := Nat) (V := Nat) 1).mNumEntries + 1)
      > 2 * (mkHashMap (K := Nat) (V := Nat) 1).mSize ∧
    ((HashMap.insert (fun n => n) (mkHashMap 1) (1, 10)).iter.bucket
        = (fun n => n) 1 % (mkHashMap (K := Nat) (V := Nat) 1).mSize ∧
     (HashMap.insert (fun n => n) (mkHashMap 1) (1, 10)).iter.item
        = some ⟨(mkHashMap (K := Nat) (V := Nat) 1).mNextId, (1, 10), none⟩ ∧
     (HashMap.insert (fun n => n) (mkHashMap 1) (1, 10)).table.mSize
        = ((mkHashMap (K := Nat) (V := Nat) 1).mNumEntries + 1) * 3 + 5) := by
  refine ⟨by decide, by decide, by decide, ?_⟩
  exact (c9_insert_resize_stale_cursor (fun n => n)).1 (mkHashMap 1) 1 10
    (by decide) (by decide) (by decide)

/-- C10: the constructor accepts any requested capacity, including 0,
without establishing the capacity-at-least-1 invariant: with capacity at
least 1 the bucket computation `hash(key) % mSize` always addresses a
valid slot, while a capacity-0 table has divisor `mSize = 0` in the
bucket computation of `insert` and `find`, and the resulting index is out
of range for every key. -/
theorem c10_zero_capacity_hazard :
    (∀ aSize : Nat, (mkHashMap (K := K) (V := V) aSize).mSize = aSize ∧
      (mkHashMap (K := K) (V := V) aSize).mNumEntries = 0 ∧
      (mkHashMap (K := K) (V := V) aSize).mBuckets.length = aSize) ∧
    (∀ aSize : Nat, 1 ≤ aSize → ∀ k : K,
      hash k % (mkHashMap (K := K) (V := V) aSize).mSize
        < (mkHashMap (K := K) (V := V) aSize).mBuckets.length) ∧
    ((mkHashMap (K := K) (V := V) 0).mSize = 0 ∧
     ∀ k : K, ¬ hash k % (mkHashMap (K := K) (V := V) 0).mSize
        < (mkHashMap (K := K) (V := V) 0).mBuckets.length) := by
  refine ⟨?_, ?_, ?_⟩
  · intro aSize
    exact ⟨rfl, rfl, by simp [mkHashMap]⟩
  · intro aSize hpos k
    have h2 : (mkHashMap (K := K) (V := V) aSize).mBuckets.length = aSize := by
      simp [mkHashMap]
    rw [h2]
    exact Nat.mod_lt _ hpos
  · refine ⟨rfl, ?_⟩
    intro k
    simp [mkHashMap]

theorem c10_witness :
    (1 : Nat) ≤ 23 ∧
    (fun n : Nat => n) 5 % (mkHashMap (K := Nat) (V := Nat) 23).mSize
      < (mkHashMap (K := Nat) (V := Nat) 23).mBuckets.length := by
  exact ⟨by decide, (c10_zero_capacity_hazard (fun n : Nat => n)).2.1 23 (by decide) 5⟩

end GCAM
